import Mathlib

/-!
Verification of the hierarchical text chunking engine of sutr-app/command-utils
(src/text/chunking: chunker.rs, config.rs, types.rs, sliding_window.rs, and the
sentence splitter of src/text.rs).

Modelling conventions, chosen to mirror the Rust source:

* A Rust `String`/`&str` is modelled as `List Char`.  Rust mixes two offset
  systems: `text.len()` and `str::find` work on UTF-8 BYTES, while
  `text.chars()` works on characters.  We therefore keep texts as `List Char`
  and compute byte quantities with `Char.utf8Size` (`byteLen` below), exactly
  where the source uses `.len()` or byte indices.  All byte offsets the source
  manipulates are character-boundary aligned (regex match bounds, `find`
  results on valid UTF-8, sums of `.len()` of full substrings), so a byte
  offset is always representable as `byteLen` of a character prefix.
* The chunker is embedded in fallback mode (`HierarchicalChunker::new_fallback`,
  `token_provider == None`).  `new_fallback` rejects
  `FallbackStrategy::RequireTokenProvider`, so only `CharacterEstimation` and
  `CharacterLimit` can reach `chunk_efficiently`; the `FallbackStrategy` type
  below has exactly those two constructors.
* The `TokenizationCache` used inside `chunk_efficiently` memoises the pure
  fallback estimator: `cache_estimate`/`cache_tokens` are only ever called with
  the freshly computed value for the given text, so every cache hit returns
  exactly what recomputation would return.  The cache is therefore modelled as
  a lookup oracle (`CacheOracle`); `ValidCacheOracle` states the invariant that
  all stored entries are correct, which every reachable cache state satisfies.
  (The eviction policy itself is modelled separately, and exactly, for the
  cache-bound claim.)
* Loops whose progress is not structural are written with an explicit fuel
  argument and return a `fuelExhausted` error when it runs out.  Call sites
  pass fuel that is sufficient whenever the Rust loop terminates (noted at
  each site); the forced-splitting outer loop genuinely diverges in Rust when
  `find_forced_split_position` returns its own start position, and the model
  returns `fuelExhausted` there.
* Rust `u32` token ids: `tokenize_text`'s fallback produces
  `(1..=estimated_count as u32)`; the `as u32` cast reduces the count modulo
  2^32, which the model keeps explicitly.
* A Rust panic (out-of-range string slice in `adjust_positions_with_string_search`
  via a stale `current_search_pos`, or a reversed slice
  `chars[start_pos..i + 1]` in `find_forced_split_position`) is modelled as a
  distinguished error value, so that no claim about successful runs can be
  satisfied by an execution on which the Rust program aborts.
* `HierarchicalChunk.metadata` (an always-empty string map, never read by the
  pipeline) is omitted from the chunk structure.
-/

/-- Rust `char::is_whitespace`: the Unicode White_Space property.  The same
set backs the regex class `\s` of the paragraph-boundary pattern (the regex
crate compiles `\s` to Unicode white space by default). -/
def isRustWs (c : Char) : Bool :=
  c.toNat = 0x09 || c.toNat = 0x0A || c.toNat = 0x0B || c.toNat = 0x0C ||
  c.toNat = 0x0D || c.toNat = 0x20 || c.toNat = 0x85 || c.toNat = 0xA0 ||
  c.toNat = 0x1680 || (0x2000 ≤ c.toNat && c.toNat ≤ 0x200A) ||
  c.toNat = 0x2028 || c.toNat = 0x2029 || c.toNat = 0x202F ||
  c.toNat = 0x205F || c.toNat = 0x3000

/-- UTF-8 byte length of a text, i.e. Rust `str::len`. -/
def byteLen (l : List Char) : Nat := (l.map Char.utf8Size).sum

/-- Rust `str::trim`: strip Unicode whitespace from both ends. -/
def rustTrim (l : List Char) : List Char :=
  ((l.dropWhile isRustWs).reverse.dropWhile isRustWs).reverse

/-- The character slice `chars[s..e]` (for `s ≤ e`; callers guard the reversed
case, which panics in Rust, before slicing). -/
def sliceCh (l : List Char) (s e : Nat) : List Char := (l.drop s).take (e - s)

/-- Rust `Vec::join(sep)` on a list of strings. -/
def joinSep (sep : List Char) : List (List Char) → List Char
  | [] => []
  | [x] => x
  | x :: y :: xs => x ++ sep ++ joinSep sep (y :: xs)

/-- First occurrence of `pat` in `l`, as a CHARACTER index (Rust `str::find`
returns the byte index; UTF-8 self-synchronisation means byte-level matches of
a valid pattern occur only at character boundaries, so the byte index is
`byteLen` of the prefix of this many characters). -/
def findSubIdx (pat : List Char) : List Char → Option Nat
  | [] => if pat.isEmpty then some 0 else none
  | c :: rest =>
    if pat.isPrefixOf (c :: rest) then some 0
    else (findSubIdx pat rest).map (· + 1)

/-- Drop the prefix of `l` occupying exactly `n` bytes; `none` when `n` is not
a character boundary or exceeds the total byte length (Rust slicing `&s[n..]`
panics in both cases). -/
def byteDrop : List Char → Nat → Option (List Char)
  | l, 0 => some l
  | [], _ + 1 => none
  | c :: rest, n + 1 =>
    if n + 1 < c.utf8Size then none else byteDrop rest (n + 1 - c.utf8Size)

/-- Chunk provenance tags (types.rs `ChunkType`). -/
inductive ChunkType where
  | completeParagraph
  | mergedParagraphs
  | splitParagraph
  | sentenceBasedSplit
  | forcedSplit
  | custom (label : List Char)
deriving DecidableEq, Repr

/-- Output unit of the chunker (types.rs `HierarchicalChunk`; the always-empty
`metadata` map is omitted).  `charStart`/`charEnd` carry whatever offsets the
source stores in the equally named fields (byte offsets on the string-search
reconciliation path). -/
structure HierarchicalChunk where
  content : List Char
  tokens : List Nat
  charStart : Nat
  charEnd : Nat
  chunkType : ChunkType
  chunkIndex : Nat
deriving DecidableEq, Repr

/-- Per-run chunking policy (config.rs `HierarchicalChunkingConfig`). -/
structure HierarchicalChunkingConfig where
  maxChunkTokens : Nat
  minChunkTokens : Nat
  enableParagraphMerging : Bool
  enableSentenceSplitting : Bool
  enableForcedSplitting : Bool
deriving DecidableEq, Repr

/-- config.rs `HierarchicalChunkingConfig::validate` (true iff it returns Ok). -/
def HierarchicalChunkingConfig.validateOk (cfg : HierarchicalChunkingConfig) : Bool :=
  0 < cfg.maxChunkTokens && cfg.minChunkTokens < cfg.maxChunkTokens &&
  (cfg.enableSentenceSplitting || cfg.enableForcedSplitting)

/-- The fallback strategies with which a provider-less chunker can be built
(`new_fallback` rejects `RequireTokenProvider` at construction, so it never
reaches `chunk_efficiently`). -/
inductive FallbackStrategy where
  | characterEstimation
  | characterLimit
deriving DecidableEq, Repr

/-- Errors of the pipeline.  `configuration` covers the source's Configuration
error (forced splitting required but disabled); `sliceOutOfBounds` marks a
Rust panic site; `fuelExhausted` marks fuel running out (reachable only where
the Rust loop diverges, see the fuel notes at the call sites). -/
inductive ChunkErr where
  | configuration
  | sliceOutOfBounds
  | fuelExhausted
deriving DecidableEq, Repr

/-- calculate_token_count's provider-less fallback arithmetic:
CharacterEstimation is `text.len().div_ceil(4)`, CharacterLimit is
`text.len()` (both on BYTE length). -/
def fallbackEstimate : FallbackStrategy → List Char → Nat
  | .characterEstimation, t => (byteLen t + 3) / 4
  | .characterLimit, t => byteLen t

/-- tokenize_text's provider-less fallback: dummy ids `(1..=count as u32)`;
the `as u32` cast reduces the count modulo 2^32. -/
def fallbackTokens (strat : FallbackStrategy) (t : List Char) : List Nat :=
  List.range' 1 (fallbackEstimate strat t % 4294967296)

/-- Read model of the `TokenizationCache` as seen by calculate_token_count /
tokenize_text: a lookup that may hit (`some`) or miss (`none`). -/
structure CacheOracle where
  estC : List Char → Option Nat
  tokC : List Char → Option (List Nat)

/-- The cache never misleads: every stored estimate (resp. tokenisation) is
what the fallback would recompute.  Holds for every reachable cache state,
because entries are only ever inserted with the freshly computed value. -/
def ValidCacheOracle (strat : FallbackStrategy) (o : CacheOracle) : Prop :=
  (∀ t n, o.estC t = some n → n = fallbackEstimate strat t) ∧
  (∀ t l, o.tokC t = some l → l = fallbackTokens strat t)

/-- The always-miss oracle (a fresh cache, or a disabled one). -/
def emptyOracle : CacheOracle := ⟨fun _ => none, fun _ => none⟩

/-- chunker.rs `calculate_token_count` in fallback mode: cache hit, else the
strategy's estimate (total: neither strategy can error). -/
def calculateTokenCount (strat : FallbackStrategy) (o : CacheOracle) (t : List Char) : Nat :=
  (o.estC t).getD (fallbackEstimate strat t)

/-- chunker.rs `tokenize_text` in fallback mode: cache hit, else dummy ids up
to `calculate_token_count` (which itself consults the estimate cache). -/
def tokenizeText (strat : FallbackStrategy) (o : CacheOracle) (t : List Char) : List Nat :=
  (o.tokC t).getD (List.range' 1 (calculateTokenCount strat o t % 4294967296))

theorem calculateTokenCount_valid {strat o} (h : ValidCacheOracle strat o) :
    calculateTokenCount strat o = fallbackEstimate strat := by
  funext t
  unfold calculateTokenCount
  cases hc : o.estC t with
  | none => rfl
  | some n => simpa using h.1 t n hc

theorem tokenizeText_valid {strat o} (h : ValidCacheOracle strat o) :
    tokenizeText strat o = fallbackTokens strat := by
  funext t
  unfold tokenizeText
  cases hc : o.tokC t with
  | none => rw [calculateTokenCount_valid h]; rfl
  | some l => simpa [fallbackTokens] using h.2 t l hc

/-- The default sentence splitter configuration built by the chunker
(`SentenceSplitterCreator::new(None, None, None, None).create()`):
max_buf_length 512, DELIMITER_CHARS, no force characters, PARENTHESE_PAIRS. -/
def defaultDelims : List Char := ['。', '．', '！', '？', '!', '?', '\n']

/-- text.rs `SentenceSplitterCreator::PARENTHESE_PAIRS`. -/
def defaultParens : List (Char × Char) := [('「', '」'), ('『', '』'), ('【', '】')]

/-- One step of text.rs `SentenceSplitter::split`: the body of the `for c`
loop after `buf.push(c)`, returning (buf, waiting_stack, sentences).  The
stack holds expected closing characters, most recent first. -/
def splitStep (delims force : List Char) (parens : List (Char × Char))
    (c : Char) (buf : List Char) (stack : List Char) (acc : List (List Char)) :
    List Char × List Char × List (List Char) :=
  match parens.lookup c with
  | some t => (buf, t :: stack, acc)
  | none =>
    match stack with
    | d :: stackRest =>
      if c = d then (buf, stackRest, acc)
      else if force.contains c then ([], [], acc ++ [buf])
      else (buf, stack, acc)
    | [] =>
      if delims.contains c then ([], stack, acc ++ [buf])
      else (buf, stack, acc)

/-- text.rs `SentenceSplitter::split`, structurally over the input text. -/
def splitLoop (maxBuf : Nat) (delims force : List Char) (parens : List (Char × Char)) :
    List Char → List Char → List Char → List (List Char) → List (List Char)
  | [], buf, _, acc => if buf.isEmpty then acc else acc ++ [buf]
  | c :: rest, buf, stack, acc =>
    let buf1 := buf ++ [c]
    let (buf2, stack2, acc2) := splitStep delims force parens c buf1 stack acc
    if maxBuf ≤ buf2.length then splitLoop maxBuf delims force parens rest [] [] (acc2 ++ [buf2])
    else splitLoop maxBuf delims force parens rest buf2 stack2 acc2

/-- The sentence splitter instance the chunker constructs (default config). -/
def sentenceSplit (text : List Char) : List (List Char) :=
  splitLoop 512 defaultDelims [] defaultParens text [] [] []

/-- Information about a detected paragraph (chunker.rs `ParagraphInfo`); the
`char_start`/`char_end` fields hold BYTE offsets in the source (`mat.start()`,
`text.len()`), which the model keeps. -/
structure ParagraphInfo where
  content : List Char
  charStart : Nat
  charEnd : Nat
deriving DecidableEq, Repr

/-- Last index of `l` whose element satisfies `p`. -/
def lastIdxWith (p : Char → Bool) (l : List Char) : Option Nat :=
  match l.reverse.findIdx? p with
  | some j => some (l.length - 1 - j)
  | none => none

/-- Leftmost-first match of the paragraph-boundary regex
`\n\s*\n|\n\s*[　\t]` at character position `i`: `some e` gives the match end
(exclusive, character index).  The regex crate uses leftmost-first semantics:
the first alternative is preferred in full (with greedy `\s*`, i.e. the
LAST qualifying final character inside the whitespace run), and the second
alternative is tried only if the first cannot match at `i`. -/
def paraMatchAt (text : List Char) (i : Nat) : Option Nat :=
  if i < text.length && text.getD i ' ' = '\n' then
    let tail := text.drop (i + 1)
    let seg := tail.takeWhile isRustWs
    match lastIdxWith (· = '\n') seg with
    | some k => some (i + 1 + k + 1)
    | none =>
      match lastIdxWith (fun c => c = '　' || c = '\t') seg with
      | some k => some (i + 1 + k + 1)
      | none => none
  else none

/-- Earliest regex match at a position ≥ `i` (`Regex::find_iter` resumes the
search at the previous match end).  Fuel: one unit per candidate start
position, so `text.length` units always suffice from any start. -/
def findParaFrom (text : List Char) : Nat → Nat → Option (Nat × Nat)
  | 0, _ => none
  | fuel + 1, i =>
    if i < text.length then
      match paraMatchAt text i with
      | some e => some (i, e)
      | none => findParaFrom text fuel (i + 1)
    else none

/-- Byte offset of character index `i` in `text` (regex match bounds are byte
offsets in the source). -/
def byteIdx (text : List Char) (i : Nat) : Nat := byteLen (text.take i)

/-- The `for mat in find_iter` loop of `detect_paragraph_boundaries_fast`,
followed by the trailing-text push.  `lastEnd` is a character index (its byte
image is taken where the source stores offsets).  Fuel: every regex match has
length ≥ 2 characters, so match ends strictly increase and `text.length + 1`
units suffice; exhaustion is therefore unreachable but modelled as an error. -/
def detectLoop (text : List Char) : Nat → Nat → List ParagraphInfo →
    Except ChunkErr (List ParagraphInfo)
  | 0, _, _ => .error .fuelExhausted
  | fuel + 1, lastEnd, acc =>
    match findParaFrom text text.length lastEnd with
    | some (s, e) =>
      let para := sliceCh text lastEnd s
      let acc1 :=
        if lastEnd < s && !(rustTrim para).isEmpty then
          acc ++ [⟨para, byteIdx text lastEnd, byteIdx text s⟩]
        else acc
      detectLoop text fuel e acc1
    | none =>
      let acc1 :=
        if lastEnd < text.length && !(rustTrim (text.drop lastEnd)).isEmpty then
          acc ++ [⟨text.drop lastEnd, byteIdx text lastEnd, byteLen text⟩]
        else acc
      .ok acc1

/-- chunker.rs `detect_paragraph_boundaries_fast`. -/
def detectParagraphBoundaries (text : List Char) : Except ChunkErr (List ParagraphInfo) := do
  let paras ← detectLoop text (text.length + 1) 0 []
  if paras.isEmpty && !(rustTrim text).isEmpty then
    pure [⟨rustTrim text, 0, byteLen text⟩]
  else
    pure paras

/-- The binary search of `find_forced_split_position`: while `low ≤ high`,
test the token count of `chars[start..mid]` and keep the largest passing
`mid` in `best`.  In fallback mode `calculate_token_count` cannot error, so
the `Err` arm of the source match is dead.  Fuel: each iteration shrinks
`high + 1 - low` by at least one, so any fuel above the initial gap suffices;
call sites pass `high + 2`. -/
def bsearchPos (maxTok : Nat) (tc : List Char → Nat) (chars : List Char) (start : Nat) :
    Nat → Nat → Nat → Nat → Nat
  | 0, _, _, best => best
  | fuel + 1, low, high, best =>
    if low ≤ high then
      let mid := (low + high) / 2
      if tc (sliceCh chars start mid) ≤ maxTok then
        bsearchPos maxTok tc chars start fuel (mid + 1) high mid
      else
        bsearchPos maxTok tc chars start fuel low (mid - 1) best
    else best

/-- The backward break-character scan of `find_forced_split_position`, over an
explicit (descending) list of candidate indices.  Rust slices
`chars[start_pos..i + 1]` before checking the token budget; when `i + 1 < start`
that slice panics, which the model surfaces as an error. -/
def breakScan (maxTok : Nat) (tc : List Char → Nat) (chars : List Char) (start : Nat) :
    List Nat → Except ChunkErr (Option Nat)
  | [] => .ok none
  | i :: rest =>
    if isRustWs (chars.getD i ' ') || ("。！？.!?、,".data).contains (chars.getD i ' ') then
      if i + 1 < start then .error .sliceOutOfBounds
      else if tc (sliceCh chars start (i + 1)) ≤ maxTok then .ok (some (i + 1))
      else breakScan maxTok tc chars start rest
    else breakScan maxTok tc chars start rest

/-- The candidate break positions scanned by `find_forced_split_position`:
`(search_start..min(best_pos, search_end)).rev()` with
`search_start = best_pos - 20` (saturating) and
`search_end = min(best_pos + 20, chars.len())`. -/
def forcedCandidates (best len : Nat) : List Nat :=
  (List.range' (best - 20) (min best (min (best + 20) len) - (best - 20))).reverse

/-- The maximal end position found by the binary search of
`find_forced_split_position`: `low = start_pos + 1`,
`high = initial_estimate = min(start_pos + max_chunk_tokens * 3, chars.len())`,
`best_pos` initialised to `low`.  The fuel `high + 2` exceeds the initial
`high + 1 - low` gap, which shrinks by at least one per iteration, so it
never runs out. -/
def bestSplitPos (maxTok : Nat) (tc : List Char → Nat) (chars : List Char)
    (start : Nat) : Nat :=
  bsearchPos maxTok tc chars start (min (start + maxTok * 3) chars.length + 2)
    (start + 1) (min (start + maxTok * 3) chars.length) (start + 1)

/-- chunker.rs `find_forced_split_position`. -/
def findForcedSplitPosition (maxTok : Nat) (tc : List Char → Nat)
    (chars : List Char) (start : Nat) : Except ChunkErr Nat :=
  if chars.length - start = 0 then .ok chars.length
  else
    match breakScan maxTok tc chars start
        (forcedCandidates (bestSplitPos maxTok tc chars start) chars.length) with
    | .error e => .error e
    | .ok (some p) => .ok p
    | .ok none => .ok (bestSplitPos maxTok tc chars start)

/-- The `while start_pos < chars.len()` loop of `apply_forced_splitting`.
Fuel: each iteration with `end_pos > start_pos` strictly advances, so
`chars.length + 1` units cover every terminating Rust execution; when
`find_forced_split_position` returns `end_pos = start_pos` the Rust loop
diverges and the model reports `fuelExhausted`. -/
def forcedLoop (maxTok : Nat) (tc : List Char → Nat) (tok : List Char → List Nat)
    (chars : List Char) : Nat → Nat → List HierarchicalChunk →
    Except ChunkErr (List HierarchicalChunk)
  | 0, _, _ => .error .fuelExhausted
  | fuel + 1, start, acc =>
    if start < chars.length then
      match findForcedSplitPosition maxTok tc chars start with
      | .error e => .error e
      | .ok endPos =>
        let content := sliceCh chars start endPos
        let c : HierarchicalChunk :=
          ⟨content, tok content, start, endPos, .forcedSplit, acc.length⟩
        forcedLoop maxTok tc tok chars fuel endPos (acc ++ [c])
    else .ok acc

/-- chunker.rs `apply_forced_splitting` (Level 3). -/
def applyForcedSplitting (cfg : HierarchicalChunkingConfig)
    (tc : List Char → Nat) (tok : List Char → List Nat) (text : List Char) :
    Except ChunkErr (List HierarchicalChunk) :=
  if !cfg.enableForcedSplitting then .error .configuration
  else forcedLoop cfg.maxChunkTokens tc tok text (text.length + 1) 0 []

/-- chunker.rs `adjust_chunk_char_positions`: shift both offsets. -/
def adjustChunkCharPositions (c : HierarchicalChunk) (offset : Nat) : HierarchicalChunk :=
  { c with charStart := c.charStart + offset, charEnd := c.charEnd + offset }

/-- Separator used when joining accumulated sentences. -/
def spaceSep : List Char := [' ']

/-- Separator used when joining merged paragraphs. -/
def nlSep : List Char := ['\n', '\n']

/-- Splice the chunks of a forced split into the running chunk list, shifting
each by the running character position and advancing it by the content's byte
length (the `for chunk in forced_chunks` loops in
`split_paragraph_by_sentences`). -/
def spliceForced (chunks : List HierarchicalChunk) (ccp : Nat)
    (forced : List HierarchicalChunk) : List HierarchicalChunk × Nat :=
  forced.foldl
    (fun (p : List HierarchicalChunk × Nat) c =>
      (p.1 ++ [adjustChunkCharPositions c p.2], p.2 + byteLen c.content))
    (chunks, ccp)

/-- The combined text tested before extending the current sentence group:
`format!("{} {}", current_sentences.join(" "), sentence_trimmed)` when the
group is non-empty, else the sentence alone. -/
def sentCombined (cur : List (List Char)) (st : List Char) : List Char :=
  if cur.isEmpty then st else joinSep spaceSep cur ++ spaceSep ++ st

/-- Finalising the current sentence group on overflow: emit it as a
`SentenceBasedSplit` chunk at the running character position (if non-empty)
and advance the position by its byte length. -/
def sentFinalizeCur (tok : List Char → List Nat) (chunks : List HierarchicalChunk)
    (cur : List (List Char)) (ccp : Nat) : List HierarchicalChunk × Nat :=
  if cur.isEmpty then (chunks, ccp)
  else
    (chunks ++
      [⟨joinSep spaceSep cur, tok (joinSep spaceSep cur), ccp,
        ccp + byteLen (joinSep spaceSep cur), .sentenceBasedSplit, chunks.length⟩],
     ccp + byteLen (joinSep spaceSep cur))

/-- The `for sentence in sentences` loop of `split_paragraph_by_sentences`.
State: finished chunks, current sentence group, running character position. -/
def sentLoop (cfg : HierarchicalChunkingConfig) (tc : List Char → Nat)
    (tok : List Char → List Nat) : List (List Char) →
    List HierarchicalChunk → List (List Char) → Nat →
    Except ChunkErr (List HierarchicalChunk × List (List Char) × Nat)
  | [], chunks, cur, ccp => .ok (chunks, cur, ccp)
  | s :: rest, chunks, cur, ccp =>
    if (rustTrim s).isEmpty then sentLoop cfg tc tok rest chunks cur ccp
    else
      if tc (sentCombined cur (rustTrim s)) ≤ cfg.maxChunkTokens then
        sentLoop cfg tc tok rest chunks (cur ++ [rustTrim s]) ccp
      else
        if cfg.maxChunkTokens < tc (rustTrim s) then
          match applyForcedSplitting cfg tc tok (rustTrim s) with
          | .error e => .error e
          | .ok forcedCs =>
            sentLoop cfg tc tok rest
              (spliceForced (sentFinalizeCur tok chunks cur ccp).1
                (sentFinalizeCur tok chunks cur ccp).2 forcedCs).1 []
              (spliceForced (sentFinalizeCur tok chunks cur ccp).1
                (sentFinalizeCur tok chunks cur ccp).2 forcedCs).2
        else
          sentLoop cfg tc tok rest (sentFinalizeCur tok chunks cur ccp).1 [rustTrim s]
            (sentFinalizeCur tok chunks cur ccp).2

/-- chunker.rs `split_paragraph_by_sentences` (Level 2): the sentence loop
followed by the trailing-group processing. -/
def splitParagraphBySentences (cfg : HierarchicalChunkingConfig)
    (tc : List Char → Nat) (tok : List Char → List Nat) (paragraph : List Char) :
    Except ChunkErr (List HierarchicalChunk) :=
  if !cfg.enableSentenceSplitting then applyForcedSplitting cfg tc tok paragraph
  else
    match sentLoop cfg tc tok (sentenceSplit paragraph) [] [] 0 with
    | .error e => .error e
    | .ok (chunks, cur, ccp) =>
      if cur.isEmpty then .ok chunks
      else
        if tc (joinSep spaceSep cur) ≤ cfg.maxChunkTokens then
          .ok (chunks ++
            [⟨joinSep spaceSep cur, tok (joinSep spaceSep cur), ccp,
              ccp + byteLen (joinSep spaceSep cur), .sentenceBasedSplit,
              chunks.length⟩])
        else
          match applyForcedSplitting cfg tc tok (joinSep spaceSep cur) with
          | .error e => .error e
          | .ok forcedCs => .ok (spliceForced chunks ccp forcedCs).1

/-- chunker.rs `merge_small_paragraphs_simple` (total in fallback mode).
Each pending entry carries the trimmed paragraph and its precomputed token
list (the latter only feeds the dead `_current_tokens` variable). -/
def mergeCombined (cur : List (List Char)) (p : List Char) : List Char :=
  if cur.isEmpty then p else joinSep nlSep cur ++ nlSep ++ p

/-- Finalising the current merge group: emit it as a `MergedParagraphs` chunk
with placeholder positions (0, 0) when non-empty. -/
def mergeFinalizeCur (tok : List Char → List Nat) (cur : List (List Char))
    (acc : List HierarchicalChunk) : List HierarchicalChunk :=
  if cur.isEmpty then acc
  else
    acc ++ [⟨joinSep nlSep cur, tok (joinSep nlSep cur), 0, 0,
      .mergedParagraphs, acc.length⟩]

def mergeLoop (cfg : HierarchicalChunkingConfig) (tc : List Char → Nat)
    (tok : List Char → List Nat) : List (List Char × List Nat) →
    List (List Char) → List HierarchicalChunk → List HierarchicalChunk
  | [], cur, acc => mergeFinalizeCur tok cur acc
  | (p, _) :: rest, cur, acc =>
    if tc (mergeCombined cur p) ≤ cfg.maxChunkTokens then
      mergeLoop cfg tc tok rest (cur ++ [p]) acc
    else mergeLoop cfg tc tok rest [p] (mergeFinalizeCur tok cur acc)

/-- Set a chunk's index (chunker.rs `adjust_chunk_index`). -/
def setChunkIndex (c : HierarchicalChunk) (n : Nat) : HierarchicalChunk :=
  { c with chunkIndex := n }

/-- Append chunks, re-indexing each to its position in the combined list
(the `final_chunks.push(self.adjust_chunk_index(chunk, final_chunks.len()))`
loops of `chunk_efficiently`). -/
def appendWithIndex (acc cs : List HierarchicalChunk) : List HierarchicalChunk :=
  cs.foldl (fun a c => a ++ [setChunkIndex c a.length]) acc

/-- The `for (paragraph_index, paragraph_info)` loop of `chunk_efficiently`
(Step 2): classify each paragraph, emitting complete paragraphs, deferring
small ones to the pending list, and splitting oversized ones. -/
def processParagraphs (cfg : HierarchicalChunkingConfig) (tc : List Char → Nat)
    (tok : List Char → List Nat) : List ParagraphInfo →
    List HierarchicalChunk → List (List Char × List Nat) →
    Except ChunkErr (List HierarchicalChunk × List (List Char × List Nat))
  | [], acc, pend => .ok (acc, pend)
  | p :: rest, acc, pend =>
    if (rustTrim p.content).isEmpty then processParagraphs cfg tc tok rest acc pend
    else
      if tc (rustTrim p.content) ≤ cfg.maxChunkTokens then
        if cfg.minChunkTokens ≤ tc (rustTrim p.content) then
          processParagraphs cfg tc tok rest
            (acc ++ [⟨rustTrim p.content, tok (rustTrim p.content), p.charStart,
              p.charEnd, .completeParagraph, acc.length⟩]) pend
        else
          processParagraphs cfg tc tok rest acc
            (pend ++ [(rustTrim p.content, tok (rustTrim p.content))])
      else
        match splitParagraphBySentences cfg tc tok (rustTrim p.content) with
        | .error e => .error e
        | .ok cs => processParagraphs cfg tc tok rest (appendWithIndex acc cs) pend

/-- The trailing safety check of `adjust_positions_with_string_search`: clamp
`char_end` to the text byte length, and then `char_start` too if it still
exceeds it. -/
def clampPositions (textB s e : Nat) : Nat × Nat :=
  if textB < e then (if textB < s then (textB, textB) else (s, textB)) else (s, e)

/-- One iteration of `adjust_positions_with_string_search`: find the chunk's
content in the remaining haystack `hay` (which is the text after byte offset
`csp = current_search_pos`), else globally, else place sequentially; returns
`(char_start, char_end, next current_search_pos)` before clamping.  Note the
global-search branch leaves `current_search_pos` unchanged, as the source
does. -/
def searchBranch (text hay content : List Char) (csp : Nat) : Nat × Nat × Nat :=
  match findSubIdx content hay with
  | some i =>
    let st := csp + byteIdx hay i
    (st, st + byteLen content, st + byteLen content)
  | none =>
    match findSubIdx content text with
    | some j =>
      let st := byteIdx text j
      (st, st + byteLen content, csp)
    | none => (csp, csp + byteLen content, csp + byteLen content)

/-- chunker.rs `adjust_positions_with_string_search` (the reconciliation path
taken when no token provider exists).  Slicing `&original_text[csp..]` panics
when `current_search_pos` exceeds the text (reachable through the
sequential-placement branch, which can push it past the end without clamping
it), modelled by `byteDrop` returning `none`. -/
def adjustPositionsWithStringSearch (text : List Char) :
    List HierarchicalChunk → Nat → Except ChunkErr (List HierarchicalChunk)
  | [], _ => .ok []
  | c :: rest, csp =>
    match byteDrop text csp with
    | none => .error .sliceOutOfBounds
    | some hay =>
      let t := searchBranch text hay c.content csp
      let p := clampPositions (byteLen text) t.1 t.2.1
      match adjustPositionsWithStringSearch text rest t.2.2 with
      | .error err => .error err
      | .ok cs => .ok ({ c with charStart := p.1, charEnd := p.2 } :: cs)

/-- Ascending order on the sort key `(char_start, char_end)` (Rust tuple
order, i.e. lexicographic). -/
def chunkLe (a b : HierarchicalChunk) : Prop :=
  a.charStart < b.charStart ∨ (a.charStart = b.charStart ∧ a.charEnd ≤ b.charEnd)

instance : DecidableRel chunkLe := fun a b => by
  unfold chunkLe; exact inferInstance

/-- Step 6 of `chunk_efficiently`: `sort_by_key(|c| (c.char_start, c.char_end))`.
Both Rust's stable sort and insertion sort are stable, so they produce the
same arrangement. -/
def sortChunks (l : List HierarchicalChunk) : List HierarchicalChunk :=
  List.insertionSort chunkLe l

/-- The reindexing pass after sorting: `chunk.chunk_index = idx`. -/
def reindexFrom : Nat → List HierarchicalChunk → List HierarchicalChunk
  | _, [] => []
  | n, c :: cs => { c with chunkIndex := n } :: reindexFrom (n + 1) cs

/-- Step 3 of `chunk_efficiently`: either run paragraph merging, or append
each pending small paragraph individually as a `CompleteParagraph` chunk
(positions `0..content.len()`). -/
def pendingStep (cfg : HierarchicalChunkingConfig) (tc : List Char → Nat)
    (tok : List Char → List Nat) (cs : List HierarchicalChunk)
    (pend : List (List Char × List Nat)) : List HierarchicalChunk :=
  if cfg.enableParagraphMerging && !pend.isEmpty then
    appendWithIndex cs (mergeLoop cfg tc tok pend [] [])
  else
    pend.foldl
      (fun a pr => a ++ [⟨pr.1, pr.2, 0, byteLen pr.1, .completeParagraph, a.length⟩]) cs

/-- Steps 5 to 6 of `chunk_efficiently`: drop zero-length chunks, drop chunks
below the token minimum, sort by `(char_start, char_end)`, reindex. -/
def finalizeChunks (cfg : HierarchicalChunkingConfig)
    (adjusted : List HierarchicalChunk) : List HierarchicalChunk :=
  let f1 := adjusted.filter (fun c => !decide (c.charEnd - c.charStart = 0))
  let f2 := f1.filter (fun c => decide (cfg.minChunkTokens ≤ c.tokens.length))
  reindexFrom 0 (sortChunks f2)

/-- chunker.rs `chunk_efficiently`, parametric in the token-count and
tokenisation functions (statistics and logging, which never influence the
returned chunks, are omitted). -/
def chunkCore (cfg : HierarchicalChunkingConfig) (tc : List Char → Nat)
    (tok : List Char → List Nat) (text : List Char) :
    Except ChunkErr (List HierarchicalChunk) :=
  if (rustTrim text).isEmpty then .ok []
  else
    match detectParagraphBoundaries text with
    | .error e => .error e
    | .ok paras =>
      match processParagraphs cfg tc tok paras [] [] with
      | .error e => .error e
      | .ok (cs, pend) =>
        match adjustPositionsWithStringSearch text (pendingStep cfg tc tok cs pend) 0 with
        | .error e => .error e
        | .ok adjusted => .ok (finalizeChunks cfg adjusted)

/-- chunker.rs `chunk_efficiently` on a fallback-mode chunker whose
tokenisation cache currently answers as `o`. -/
def chunkEfficiently (cfg : HierarchicalChunkingConfig) (strat : FallbackStrategy)
    (o : CacheOracle) (text : List Char) : Except ChunkErr (List HierarchicalChunk) :=
  chunkCore cfg (calculateTokenCount strat o) (tokenizeText strat o) text

/-- The `while start_pos < text_length` loop of `calculate_sliding_windows`.
Fuel: each iteration advances `start_pos` by `window_stride`, so for any
positive stride `text_length + 1` units suffice; with stride 0 the Rust loop
never advances and (unless a break fires) diverges, which the model reports
as `fuelExhausted`. -/
def slidingLoop (effWindow stride minWindow textLen : Nat) :
    Nat → Nat → Nat → List (Nat × Nat) → Except ChunkErr (List (Nat × Nat))
  | 0, _, _, _ => .error .fuelExhausted
  | fuel + 1, startPos, windowIndex, acc =>
    if startPos < textLen then
      let endPos := min (startPos + effWindow) textLen
      let windowSize := endPos - startPos
      if windowSize < minWindow && 0 < windowIndex then .ok acc
      else
        let acc1 := acc ++ [(startPos, endPos)]
        if textLen ≤ endPos then .ok acc1
        else slidingLoop effWindow stride minWindow textLen fuel (startPos + stride)
          (windowIndex + 1) acc1
    else .ok acc

/-- sliding_window.rs `SlidingWindowCalculator::calculate_sliding_windows`. -/
def calculateSlidingWindows (textLength instructionLength maxSeqLength
    windowStride minWindowSize : Nat) : Except ChunkErr (List (Nat × Nat)) :=
  if maxSeqLength ≤ instructionLength then .error .configuration
  else
    let effWindow := maxSeqLength - instructionLength
    if textLength ≤ effWindow then .ok [(0, textLength)]
    else slidingLoop effWindow windowStride minWindowSize textLength
      (textLength + 1) 0 0 []

/-- sliding_window.rs `MergeStrategy`. -/
inductive MergeStrategy where
  | average
  | weightedAverage
  | firstWindow
  | lastWindow
deriving DecidableEq, Repr

/-- sliding_window.rs `calculate_window_weights` (triangular weighting, 1.0 to
1.2, flat for up to two windows). -/
def calculateWindowWeights (numWindows : Nat) : List Float :=
  if 2 < numWindows then
    (List.range numWindows).map fun i =>
      let position := Float.ofNat i / Float.ofNat (numWindows - 1)
      let distanceFromCenter := (position - 0.5).abs * 2.0
      1.0 + (1.0 - distanceFromCenter) * 0.2
  else List.replicate numWindows 1.0

/-- sliding_window.rs `merge_by_average` (always Ok). -/
def mergeByAverage (embeddings : List (List Float)) : Except ChunkErr (List Float) :=
  let dim := (embeddings.headD []).length
  let summed := embeddings.foldl (fun acc emb => List.zipWith (· + ·) acc emb)
    (List.replicate dim 0.0)
  let n := Float.ofNat embeddings.length
  .ok (summed.map (· / n))

/-- sliding_window.rs `merge_by_weighted_average` (always Ok). -/
def mergeByWeightedAverage (embeddings : List (List Float)) : Except ChunkErr (List Float) :=
  let dim := (embeddings.headD []).length
  let weights := calculateWindowWeights embeddings.length
  let totalWeight := weights.foldl (· + ·) 0.0
  let summed := (embeddings.zip weights).foldl
    (fun acc p => List.zipWith (fun a v => a + v * p.2) acc p.1)
    (List.replicate dim 0.0)
  .ok (summed.map (· / totalWeight))

/-- sliding_window.rs `EmbeddingMerger::merge_embeddings`.  The `Validation`
error of the source is represented by `ChunkErr.configuration`-free
`sliceOutOfBounds`-free dedicated handling: the model reuses `ChunkErr` with
the `configuration` constructor standing for `Validation` here, since claims
only distinguish success from failure. -/
def mergeEmbeddings (embeddings : List (List Float)) (strategy : MergeStrategy) :
    Except ChunkErr (List Float) :=
  if embeddings.isEmpty then .error .configuration
  else if embeddings.length = 1 then .ok (embeddings.headD [])
  else
    if embeddings.all (fun emb => emb.length = (embeddings.headD []).length) then
      match strategy with
      | .average => mergeByAverage embeddings
      | .weightedAverage => mergeByWeightedAverage embeddings
      | .firstWindow => .ok (embeddings.headD [])
      | .lastWindow => .ok (embeddings.getLastD [])
    else .error .configuration

/-- config.rs `TokenizationCache`, modelled exactly for the capacity claim.
The two HashMaps become association lists with distinct keys; `alInsert`
mirrors `HashMap::insert` (replace if present, else add).  HashMap key
iteration order is unspecified, so `keys().take(max/2)` removes SOME
`max_cache_size / 2` keys; the model removes the first entries, which has the
same entry count as any other choice. -/
structure TokenizationCache where
  estimationCache : List (List Char × Nat)
  tokenizationCache : List (List Char × List Nat)
  maxCacheSize : Nat
  enabled : Bool
deriving DecidableEq, Repr

/-- config.rs `TokenizationCache::new(max_size)` (the `..Default::default()`
part sets empty stores and `enabled: true`). -/
def TokenizationCache.new (maxSize : Nat) : TokenizationCache :=
  ⟨[], [], maxSize, true⟩

/-- `HashMap::insert`: replace the value of an existing key, else append. -/
def alInsert {V : Type} (k : List Char) (v : V) :
    List (List Char × V) → List (List Char × V)
  | [] => [(k, v)]
  | (k2, v2) :: rest =>
    if k = k2 then (k, v) :: rest else (k2, v2) :: alInsert k v rest

/-- config.rs `TokenizationCache::cache_estimate`. -/
def TokenizationCache.cacheEstimate (c : TokenizationCache) (text : List Char)
    (count : Nat) : TokenizationCache :=
  if !c.enabled then c
  else if c.maxCacheSize ≤ c.estimationCache.length then
    { c with estimationCache :=
        alInsert text count (c.estimationCache.drop (c.maxCacheSize / 2)) }
  else { c with estimationCache := alInsert text count c.estimationCache }

/-- config.rs `TokenizationCache::cache_tokens`. -/
def TokenizationCache.cacheTokens (c : TokenizationCache) (text : List Char)
    (tokens : List Nat) : TokenizationCache :=
  if !c.enabled then c
  else if c.maxCacheSize ≤ c.tokenizationCache.length then
    { c with tokenizationCache :=
        alInsert text tokens (c.tokenizationCache.drop (c.maxCacheSize / 2)) }
  else { c with tokenizationCache := alInsert text tokens c.tokenizationCache }

/-- A caching operation on the `TokenizationCache` (the two mutating entry
points the capacity claim quantifies over). -/
inductive CacheOp where
  | est (text : List Char) (count : Nat)
  | tok (text : List Char) (tokens : List Nat)
deriving DecidableEq, Repr

/-- Apply one caching operation. -/
def applyCacheOp (c : TokenizationCache) : CacheOp → TokenizationCache
  | .est t n => c.cacheEstimate t n
  | .tok t l => c.cacheTokens t l

theorem byteLen_nil : byteLen [] = 0 := rfl

theorem byteLen_append (a b : List Char) : byteLen (a ++ b) = byteLen a + byteLen b := by
  simp [byteLen]

theorem byteLen_cons (c : Char) (l : List Char) :
    byteLen (c :: l) = c.utf8Size + byteLen l := by
  simp [byteLen]

theorem rustTrim_eq_nil {l : List Char} (h : ∀ c ∈ l, isRustWs c = true) :
    rustTrim l = [] := by
  unfold rustTrim
  rw [List.dropWhile_eq_nil_iff.mpr h]
  simp

theorem findSubIdx_le {pat l : List Char} {i : Nat} (h : findSubIdx pat l = some i) :
    byteLen (l.take i) + byteLen pat ≤ byteLen l := by
  induction l generalizing i with
  | nil =>
    unfold findSubIdx at h
    by_cases hp : pat.isEmpty <;> simp [hp] at h
    subst h
    simp [List.isEmpty_iff.mp hp, byteLen_nil]
  | cons c rest ih =>
    unfold findSubIdx at h
    by_cases hp : pat.isPrefixOf (c :: rest)
    · simp [hp] at h
      subst h
      obtain ⟨t, ht⟩ := List.isPrefixOf_iff_prefix.mp hp
      have h2 : byteLen (c :: rest) = byteLen pat + byteLen t := by
        rw [← ht, byteLen_append]
      rw [List.take_zero, byteLen_nil, h2]
      omega
    · simp [hp] at h
      obtain ⟨j, hj, rfl⟩ := h
      have := ih hj
      rw [List.take_succ_cons, byteLen_cons, byteLen_cons]
      omega

theorem byteDrop_spec {l : List Char} {n : Nat} {r : List Char}
    (h : byteDrop l n = some r) : byteLen l = n + byteLen r := by
  induction l generalizing n with
  | nil =>
    cases n with
    | zero => cases h; omega
    | succ m => cases h
  | cons c rest ih =>
    cases n with
    | zero => cases h; omega
    | succ m =>
      unfold byteDrop at h
      by_cases hlt : m + 1 < c.utf8Size
      · rw [if_pos hlt] at h
        cases h
      · rw [if_neg hlt] at h
        have := ih h
        have hsz : 0 < c.utf8Size := Char.utf8Size_pos c
        rw [byteLen_cons]
        omega

theorem clampPositions_bounds {B s e : Nat} (h : s ≤ e) :
    (clampPositions B s e).1 ≤ (clampPositions B s e).2 ∧
    ((clampPositions B s e).2 ≤ B ∨ (clampPositions B s e).2 = e) := by
  unfold clampPositions
  split_ifs <;> simp <;> omega

theorem searchBranch_end_eq (text hay content : List Char) (csp : Nat) :
    (searchBranch text hay content csp).2.1 =
      (searchBranch text hay content csp).1 + byteLen content := by
  unfold searchBranch
  cases findSubIdx content hay
  · cases findSubIdx content text <;> rfl
  · rfl

theorem adjust_bounds {text : List Char} :
    ∀ (chunks : List HierarchicalChunk) (csp : Nat) (out : List HierarchicalChunk),
      adjustPositionsWithStringSearch text chunks csp = .ok out →
      ∀ c ∈ out, c.charStart ≤ c.charEnd ∧ c.charEnd ≤ byteLen text
  | [], csp, out => by
    intro h c hc
    cases h
    simp at hc
  | ch :: rest, csp, out => by
    intro h c hc
    unfold adjustPositionsWithStringSearch at h
    cases hbd : byteDrop text csp with
    | none => simp only [hbd] at h; cases h
    | some hay =>
      simp only [hbd] at h
      cases hrec : adjustPositionsWithStringSearch text rest
          (searchBranch text hay ch.content csp).2.2 with
      | error err => simp only [hrec] at h; cases h
      | ok cs =>
        simp only [hrec, Except.ok.injEq] at h
        subst h
        rcases List.mem_cons.mp hc with hc1 | hc1
        · have hse : (searchBranch text hay ch.content csp).1 ≤
              (searchBranch text hay ch.content csp).2.1 := by
            rw [searchBranch_end_eq]
            omega
          subst hc1
          have hcl := clampPositions_bounds (B := byteLen text) hse
          refine ⟨hcl.1, ?_⟩
          rcases hcl.2 with h2 | h2
          · exact h2
          · -- the clamp leaves `e` unchanged only when it is within bounds
            unfold clampPositions at h2 ⊢
            split_ifs at h2 ⊢ <;> simp_all
        · exact adjust_bounds rest _ cs hrec c hc1

theorem adjust_preserves {text : List Char} :
    ∀ (chunks : List HierarchicalChunk) (csp : Nat) (out : List HierarchicalChunk),
      adjustPositionsWithStringSearch text chunks csp = .ok out →
      ∀ c ∈ out, ∃ c0 ∈ chunks, c.content = c0.content ∧ c.tokens = c0.tokens ∧
        c.chunkType = c0.chunkType
  | [], csp, out => by
    intro h c hc
    cases h
    simp at hc
  | ch :: rest, csp, out => by
    intro h c hc
    unfold adjustPositionsWithStringSearch at h
    cases hbd : byteDrop text csp with
    | none => simp only [hbd] at h; cases h
    | some hay =>
      simp only [hbd] at h
      cases hrec : adjustPositionsWithStringSearch text rest
          (searchBranch text hay ch.content csp).2.2 with
      | error err => simp only [hrec] at h; cases h
      | ok cs =>
        simp only [hrec, Except.ok.injEq] at h
        subst h
        rcases List.mem_cons.mp hc with hc1 | hc1
        · exact ⟨ch, by simp, by simp [hc1]⟩
        · obtain ⟨c0, hc0, hp⟩ := adjust_preserves rest _ cs hrec c hc1
          exact ⟨c0, List.mem_cons_of_mem ch hc0, hp⟩

theorem mem_reindexFrom :
    ∀ {n : Nat} {l : List HierarchicalChunk} {c : HierarchicalChunk},
      c ∈ reindexFrom n l → ∃ c0 ∈ l, c.content = c0.content ∧ c.tokens = c0.tokens ∧
        c.charStart = c0.charStart ∧ c.charEnd = c0.charEnd ∧ c.chunkType = c0.chunkType
  | n, [], c => by intro h; cases h
  | n, c0 :: l, c => by
    intro h
    rcases List.mem_cons.mp h with h1 | h1
    · exact ⟨c0, by simp, by simp [h1]⟩
    · obtain ⟨c1, hc1, hp⟩ := mem_reindexFrom h1
      exact ⟨c1, List.mem_cons_of_mem c0 hc1, hp⟩

theorem reindexFrom_length : ∀ (n : Nat) (l : List HierarchicalChunk),
    (reindexFrom n l).length = l.length
  | _, [] => rfl
  | n, c :: l => by simp [reindexFrom, reindexFrom_length (n + 1) l]

theorem reindexFrom_getElem :
    ∀ (n : Nat) (l : List HierarchicalChunk) (i : Nat) (h : i < (reindexFrom n l).length),
      (reindexFrom n l)[i].chunkIndex = n + i
  | n, [], i, h => by simp [reindexFrom] at h
  | n, c :: l, 0, h => by simp [reindexFrom]
  | n, c :: l, i + 1, h => by
    have h2 : i < (reindexFrom (n + 1) l).length := by
      simpa [reindexFrom] using h
    have := reindexFrom_getElem (n + 1) l i h2
    simp only [reindexFrom, List.getElem_cons_succ]
    rw [this]
    omega

theorem reindexFrom_pairwise {n : Nat} {l : List HierarchicalChunk}
    (h : l.Pairwise chunkLe) : (reindexFrom n l).Pairwise chunkLe := by
  induction l generalizing n with
  | nil => exact List.Pairwise.nil
  | cons c l ih =>
    rcases List.pairwise_cons.mp h with ⟨hc, hl⟩
    refine List.pairwise_cons.mpr ⟨?_, ih hl⟩
    intro b hb
    obtain ⟨b0, hb0, _, _, hs, he, _⟩ := mem_reindexFrom hb
    have := hc b0 hb0
    unfold chunkLe at this ⊢
    simp only [hs, he]
    exact this

instance : IsTotal HierarchicalChunk chunkLe :=
  ⟨fun a b => by unfold chunkLe; omega⟩

instance : IsTrans HierarchicalChunk chunkLe :=
  ⟨fun a b c hab hbc => by unfold chunkLe at hab hbc ⊢; omega⟩

theorem sortChunks_sorted (l : List HierarchicalChunk) :
    (sortChunks l).Pairwise chunkLe :=
  List.sorted_insertionSort chunkLe l

theorem mem_sortChunks {l : List HierarchicalChunk} {c : HierarchicalChunk} :
    c ∈ sortChunks l ↔ c ∈ l :=
  List.mem_insertionSort chunkLe

theorem mem_finalizeChunks {cfg : HierarchicalChunkingConfig}
    {adjusted : List HierarchicalChunk} {c : HierarchicalChunk}
    (h : c ∈ finalizeChunks cfg adjusted) :
    ∃ c0 ∈ adjusted, c.content = c0.content ∧ c.tokens = c0.tokens ∧
      c.charStart = c0.charStart ∧ c.charEnd = c0.charEnd ∧
      c.chunkType = c0.chunkType ∧ cfg.minChunkTokens ≤ c0.tokens.length := by
  unfold finalizeChunks at h
  obtain ⟨c0, hc0, hp⟩ := mem_reindexFrom h
  rw [mem_sortChunks] at hc0
  have h2 := List.mem_filter.mp hc0
  have h1 := List.mem_filter.mp h2.1
  refine ⟨c0, h1.1, hp.1, hp.2.1, hp.2.2.1, hp.2.2.2.1, hp.2.2.2.2, ?_⟩
  have := h2.2
  simpa using this

theorem finalizeChunks_sorted (cfg : HierarchicalChunkingConfig)
    (adjusted : List HierarchicalChunk) :
    (finalizeChunks cfg adjusted).Pairwise chunkLe := by
  unfold finalizeChunks
  exact reindexFrom_pairwise (sortChunks_sorted _)

theorem finalizeChunks_idx (cfg : HierarchicalChunkingConfig)
    (adjusted : List HierarchicalChunk) (i : Nat)
    (h : i < (finalizeChunks cfg adjusted).length) :
    (finalizeChunks cfg adjusted)[i].chunkIndex = i := by
  unfold finalizeChunks at h ⊢
  rw [reindexFrom_getElem 0 _ i h]
  omega

/-- Success-shape inversion for `chunkCore`: a successful run is either the
degenerate empty-input short circuit or the full pipeline. -/
theorem chunkCore_ok_inv {cfg : HierarchicalChunkingConfig}
    {tc : List Char → Nat} {tok : List Char → List Nat} {text : List Char}
    {res : List HierarchicalChunk} (h : chunkCore cfg tc tok text = .ok res) :
    res = [] ∨
    ∃ paras cs pend adjusted,
      detectParagraphBoundaries text = .ok paras ∧
      processParagraphs cfg tc tok paras [] [] = .ok (cs, pend) ∧
      adjustPositionsWithStringSearch text (pendingStep cfg tc tok cs pend) 0 =
        .ok adjusted ∧
      res = finalizeChunks cfg adjusted := by
  unfold chunkCore at h
  by_cases ht : (rustTrim text).isEmpty
  · rw [if_pos ht] at h
    cases h
    exact Or.inl rfl
  · rw [if_neg ht] at h
    cases hd : detectParagraphBoundaries text with
    | error e => simp only [hd] at h; cases h
    | ok paras =>
      simp only [hd] at h
      cases hp : processParagraphs cfg tc tok paras [] [] with
      | error e => simp only [hp] at h; cases h
      | ok st =>
        obtain ⟨cs, pend⟩ := st
        simp only [hp] at h
        cases ha : adjustPositionsWithStringSearch text
            (pendingStep cfg tc tok cs pend) 0 with
        | error e => simp only [ha] at h; cases h
        | ok adjusted =>
          simp only [ha, Except.ok.injEq] at h
          exact Or.inr ⟨paras, cs, pend, adjusted, rfl, hp, ha, h.symm⟩

/-- Claim C3: for every successful output of chunk_efficiently, the chunks are
sorted ascending by the pair (char_start, char_end), and each chunk's
chunk_index equals its 0-based position in that final order. -/
theorem c3_sorted_and_indexed (cfg : HierarchicalChunkingConfig)
    (strat : FallbackStrategy) (o : CacheOracle) (text : List Char)
    (cs : List HierarchicalChunk)
    (h : chunkEfficiently cfg strat o text = .ok cs) :
    cs.Pairwise chunkLe ∧ ∀ (i : Nat) (hi : i < cs.length), cs[i].chunkIndex = i := by
  have h2 : chunkCore cfg (calculateTokenCount strat o) (tokenizeText strat o) text =
      .ok cs := h
  rcases chunkCore_ok_inv h2 with rfl | ⟨paras, c1, pend, adjusted, _, _, _, rfl⟩
  · exact ⟨List.Pairwise.nil, by intro i hi; simp at hi⟩
  · exact ⟨finalizeChunks_sorted _ _, fun i hi => finalizeChunks_idx _ _ i hi⟩

/-- Claim C4 (amended): for every successful output of chunk_efficiently in
fallback mode (string-search reconciliation), every returned chunk satisfies
0 ≤ char_start ≤ char_end ≤ BYTE length of the input text.  (The claim's
bound by the CHARACTER length of the input is refuted by
c4_counterexample_char_length below: these fields hold byte offsets.) -/
theorem c4_offsets_within_byte_length (cfg : HierarchicalChunkingConfig)
    (strat : FallbackStrategy) (o : CacheOracle) (text : List Char)
    (cs : List HierarchicalChunk)
    (h : chunkEfficiently cfg strat o text = .ok cs) :
    ∀ c ∈ cs, c.charStart ≤ c.charEnd ∧ c.charEnd ≤ byteLen text := by
  have h2 : chunkCore cfg (calculateTokenCount strat o) (tokenizeText strat o) text =
      .ok cs := h
  rcases chunkCore_ok_inv h2 with rfl | ⟨paras, c1, pend, adjusted, _, _, ha, rfl⟩
  · intro c hc; cases hc
  · intro c hc
    obtain ⟨c0, hc0, _, _, hs, he, _, _⟩ := mem_finalizeChunks hc
    have hb := adjust_bounds _ 0 _ ha c0 hc0
    rw [hs, he]
    exact hb

/-- Claim C7: for every input text that is empty or consists only of
whitespace, chunk_efficiently returns Ok with an empty chunk list. -/
theorem c7_whitespace_short_circuit (cfg : HierarchicalChunkingConfig)
    (strat : FallbackStrategy) (o : CacheOracle) (text : List Char)
    (h : ∀ c ∈ text, isRustWs c = true) :
    chunkEfficiently cfg strat o text = .ok [] := by
  unfold chunkEfficiently chunkCore
  rw [rustTrim_eq_nil h]
  simp

/-- Claim C8: chunk_efficiently is deterministic; in particular its result
does not depend on the current contents of the tokenisation cache, as long as
every cache entry agrees with what recomputation would produce (which holds
for every reachable cache state, including one populated by a previous run on
the same chunker instance).  Two runs on identical text, configuration and
fallback strategy therefore return identical ordered chunk lists. -/
theorem c8_deterministic (cfg : HierarchicalChunkingConfig)
    (strat : FallbackStrategy) (o1 o2 : CacheOracle) (text : List Char)
    (h1 : ValidCacheOracle strat o1) (h2 : ValidCacheOracle strat o2) :
    chunkEfficiently cfg strat o1 text = chunkEfficiently cfg strat o2 text := by
  unfold chunkEfficiently
  rw [calculateTokenCount_valid h1, tokenizeText_valid h1,
    calculateTokenCount_valid h2, tokenizeText_valid h2]

/-- Claim C5: calculate_sliding_windows(1000, 2, 512, 256, 64) succeeds and
returns exactly the windows (0,510), (256,766), (512,1000), in order. -/
theorem c5_sliding_windows_scenario :
    calculateSlidingWindows 1000 2 512 256 64 = .ok [(0, 510), (256, 766), (512, 1000)] := by
  rfl

theorem alInsert_length_le {V : Type} (k : List Char) (v : V) :
    ∀ l : List (List Char × V), (alInsert k v l).length ≤ l.length + 1
  | [] => by simp [alInsert]
  | (k2, v2) :: rest => by
    unfold alInsert
    by_cases hk : k = k2
    · simp [hk]
    · simp only [if_neg hk, List.length_cons]
      have := alInsert_length_le k v rest
      omega

/-- Size invariant of the tokenisation cache: both sub-stores stay within the
configured capacity. -/
def cacheSizeInv (m : Nat) (c : TokenizationCache) : Prop :=
  c.maxCacheSize = m ∧ c.estimationCache.length ≤ m ∧ c.tokenizationCache.length ≤ m

theorem applyCacheOp_inv {m : Nat} (hm : 2 ≤ m) {c : TokenizationCache}
    (h : cacheSizeInv m c) (op : CacheOp) : cacheSizeInv m (applyCacheOp c op) := by
  obtain ⟨hmax, hest, htok⟩ := h
  cases op with
  | est t n =>
    simp only [applyCacheOp]
    unfold TokenizationCache.cacheEstimate
    by_cases he : !c.enabled
    · rw [if_pos he]
      exact ⟨hmax, hest, htok⟩
    · rw [if_neg he]
      by_cases hcap : c.maxCacheSize ≤ c.estimationCache.length
      · rw [if_pos hcap]
        refine ⟨hmax, ?_, htok⟩
        have hd : (c.estimationCache.drop (c.maxCacheSize / 2)).length =
            c.estimationCache.length - c.maxCacheSize / 2 := by
          simp
        have := alInsert_length_le t n (c.estimationCache.drop (c.maxCacheSize / 2))
        rw [hd] at this
        simp only []
        omega
      · rw [if_neg hcap]
        refine ⟨hmax, ?_, htok⟩
        have := alInsert_length_le t n c.estimationCache
        simp only []
        omega
  | tok t l =>
    simp only [applyCacheOp]
    unfold TokenizationCache.cacheTokens
    by_cases he : !c.enabled
    · rw [if_pos he]
      exact ⟨hmax, hest, htok⟩
    · rw [if_neg he]
      by_cases hcap : c.maxCacheSize ≤ c.tokenizationCache.length
      · rw [if_pos hcap]
        refine ⟨hmax, hest, ?_⟩
        have hd : (c.tokenizationCache.drop (c.maxCacheSize / 2)).length =
            c.tokenizationCache.length - c.maxCacheSize / 2 := by
          simp
        have := alInsert_length_le t l (c.tokenizationCache.drop (c.maxCacheSize / 2))
        rw [hd] at this
        simp only []
        omega
      · rw [if_neg hcap]
        refine ⟨hmax, hest, ?_⟩
        have := alInsert_length_le t l c.tokenizationCache
        simp only []
        omega

theorem foldl_cacheOps_inv {m : Nat} (hm : 2 ≤ m) :
    ∀ (ops : List CacheOp) (c : TokenizationCache), cacheSizeInv m c →
      cacheSizeInv m (ops.foldl applyCacheOp c)
  | [], _, h => h
  | op :: ops, c, h =>
    foldl_cacheOps_inv hm ops (applyCacheOp c op) (applyCacheOp_inv hm h op)

/-- Claim C9 (amended): for every sequence of cache_estimate / cache_tokens
operations on an enabled TokenizationCache of capacity max_cache_size ≥ 2,
each sub-store's entry count never exceeds max_cache_size: at capacity,
max_cache_size / 2 entries (floor division) are removed before the insert.
For capacities 0 and 1 that floor half is zero and the bound fails
(c9_counterexample_capacity_one). -/
theorem c9_cache_bounded (ops : List CacheOp) (m : Nat) (hm : 2 ≤ m) :
    (ops.foldl applyCacheOp (TokenizationCache.new m)).estimationCache.length ≤ m ∧
    (ops.foldl applyCacheOp (TokenizationCache.new m)).tokenizationCache.length ≤ m := by
  have h0 : cacheSizeInv m (TokenizationCache.new m) := by
    refine ⟨rfl, ?_, ?_⟩ <;> simp [TokenizationCache.new]
  have := foldl_cacheOps_inv hm ops (TokenizationCache.new m) h0
  exact ⟨this.2.1, this.2.2⟩

/-- Claim C9 counterexample: with capacity 1 (an enabled cache), caching two
distinct texts leaves TWO entries in the estimate sub-store, exceeding
max_cache_size: the eviction removes max_cache_size / 2 = 0 entries. -/
theorem c9_counterexample_capacity_one :
    (TokenizationCache.new 1).maxCacheSize = 1 ∧
    (TokenizationCache.new 1).enabled = true ∧
    (((TokenizationCache.new 1).cacheEstimate "a".data 1).cacheEstimate
        "b".data 2).estimationCache.length = 2 :=
  ⟨rfl, rfl, rfl⟩

/-- Claim C6: merge_embeddings returns an error exactly when the vector list
is empty or two vectors in it have different lengths; otherwise it succeeds
(for every merge strategy). -/
theorem c6_merge_embeddings_error_iff (embeddings : List (List Float))
    (strategy : MergeStrategy) :
    (mergeEmbeddings embeddings strategy).isOk = true ↔
      embeddings ≠ [] ∧ ∀ e ∈ embeddings, e.length = (embeddings.headD []).length := by
  unfold mergeEmbeddings
  cases embeddings with
  | nil => simp [Except.isOk, Except.toBool]
  | cons x rest =>
    cases rest with
    | nil => simp [Except.isOk, Except.toBool]
    | cons y rest2 =>
      have hne : (x :: y :: rest2).isEmpty = false := rfl
      have hlen : ¬((x :: y :: rest2).length = 1) := by simp
      rw [hne]
      simp only [Bool.false_eq_true, if_false, if_neg hlen]
      cases hall : (x :: y :: rest2).all
          (fun emb => decide (emb.length = ((x :: y :: rest2).headD []).length)) with
      | true =>
        have hp : ∀ e ∈ x :: y :: rest2, e.length = ((x :: y :: rest2).headD []).length := by
          intro e he
          simpa using List.all_eq_true.mp hall e he
        simp only [hall]
        cases strategy <;>
          simp [mergeByAverage, mergeByWeightedAverage, Except.isOk, Except.toBool, hp] <;>
          exact fun a ha => hp a (List.mem_cons_of_mem x (List.mem_cons_of_mem y ha))
      | false =>
        have hp : ¬∀ e ∈ x :: y :: rest2, e.length = ((x :: y :: rest2).headD []).length := by
          intro hforall
          have h2 : (x :: y :: rest2).all
              (fun emb => decide (emb.length = ((x :: y :: rest2).headD []).length)) = true :=
            List.all_eq_true.mpr (fun e he => by simpa using hforall e he)
          rw [hall] at h2
          cases h2
        simp only [hall, Bool.false_eq_true, if_false]
        constructor
        · intro hko
          simp [Except.isOk, Except.toBool] at hko
        · rintro ⟨-, hforall⟩
          exact absurd hforall hp

/-- Joint per-chunk invariant used for the token-bound and token-shape claims:
the token list is the tokenisation of the content, and the content's token
count is within the budget. -/
def ChunkGood (mx : Nat) (tc : List Char → Nat) (tok : List Char → List Nat)
    (c : HierarchicalChunk) : Prop :=
  c.tokens = tok c.content ∧ tc c.content ≤ mx

theorem bsearchPos_inv {mx : Nat} {tc : List Char → Nat} {chars : List Char} {start : Nat} :
    ∀ (fuel low high best : Nat),
      (best = start + 1 ∨ tc (sliceCh chars start best) ≤ mx) →
      (bsearchPos mx tc chars start fuel low high best = start + 1 ∨
        tc (sliceCh chars start (bsearchPos mx tc chars start fuel low high best)) ≤ mx)
  | 0, _, _, _, h => h
  | fuel + 1, low, high, best, h => by
    unfold bsearchPos
    by_cases hlh : low ≤ high
    · rw [if_pos hlh]
      by_cases hmid : tc (sliceCh chars start ((low + high) / 2)) ≤ mx
      · rw [if_pos hmid]
        exact bsearchPos_inv fuel _ _ _ (Or.inr hmid)
      · rw [if_neg hmid]
        exact bsearchPos_inv fuel _ _ _ h
    · rw [if_neg hlh]
      exact h

theorem breakScan_some_le {mx : Nat} {tc : List Char → Nat} {chars : List Char}
    {start : Nat} :
    ∀ (idxs : List Nat) {p : Nat},
      breakScan mx tc chars start idxs = .ok (some p) →
      tc (sliceCh chars start p) ≤ mx
  | [], p, h => by simp [breakScan] at h
  | i :: rest, p, h => by
    unfold breakScan at h
    split at h
    · split at h
      · cases h
      · split at h
        · obtain rfl : i + 1 = p := by simpa using h
          assumption
        · exact breakScan_some_le rest h
    · exact breakScan_some_le rest h

theorem sliceCh_single {l : List Char} {s : Nat} (h : s < l.length) :
    sliceCh l s (s + 1) = [l[s]] := by
  unfold sliceCh
  have h1 : s + 1 - s = 1 := by omega
  rw [h1, List.drop_eq_getElem_cons h]
  rfl

theorem findForcedSplitPosition_le {mx : Nat} {tc : List Char → Nat} {chars : List Char}
    {start e : Nat} (hone : ∀ ch : Char, tc [ch] ≤ mx) (hs : start < chars.length)
    (h : findForcedSplitPosition mx tc chars start = .ok e) :
    tc (sliceCh chars start e) ≤ mx := by
  unfold findForcedSplitPosition at h
  have hne : ¬(chars.length - start = 0) := by omega
  rw [if_neg hne] at h
  have hbinv : bestSplitPos mx tc chars start = start + 1 ∨
      tc (sliceCh chars start (bestSplitPos mx tc chars start)) ≤ mx :=
    bsearchPos_inv (min (start + mx * 3) chars.length + 2) (start + 1)
      (min (start + mx * 3) chars.length) (start + 1) (Or.inl rfl)
  cases hbs : breakScan mx tc chars start
      (forcedCandidates (bestSplitPos mx tc chars start) chars.length) with
  | error err => rw [hbs] at h; cases h
  | ok w =>
    rw [hbs] at h
    cases w with
    | some p =>
      obtain rfl : p = e := by simpa using h
      exact breakScan_some_le _ hbs
    | none =>
      obtain rfl : bestSplitPos mx tc chars start = e := by simpa using h
      rcases hbinv with hb1 | hb2
      · rw [hb1, sliceCh_single hs]
        exact hone _
      · exact hb2

theorem forcedLoop_good {mx : Nat} {tc : List Char → Nat} {tok : List Char → List Nat}
    {chars : List Char} (hone : ∀ ch : Char, tc [ch] ≤ mx) :
    ∀ (fuel start : Nat) (acc out : List HierarchicalChunk),
      (∀ c ∈ acc, ChunkGood mx tc tok c) →
      forcedLoop mx tc tok chars fuel start acc = .ok out →
      ∀ c ∈ out, ChunkGood mx tc tok c
  | 0, start, acc, out, hacc, h => by cases h
  | fuel + 1, start, acc, out, hacc, h => by
    unfold forcedLoop at h
    by_cases hlt : start < chars.length
    · rw [if_pos hlt] at h
      cases hf : findForcedSplitPosition mx tc chars start with
      | error err => rw [hf] at h; cases h
      | ok endPos =>
        rw [hf] at h
        refine forcedLoop_good hone fuel endPos _ out ?_ h
        intro c hc
        rcases List.mem_append.mp hc with hc1 | hc1
        · exact hacc c hc1
        · rcases List.mem_singleton.mp hc1 with rfl
          exact ⟨rfl, findForcedSplitPosition_le hone hlt hf⟩
    · rw [if_neg hlt] at h
      cases h
      exact hacc

theorem applyForcedSplitting_good {cfg : HierarchicalChunkingConfig}
    {tc : List Char → Nat} {tok : List Char → List Nat} {text : List Char}
    {out : List HierarchicalChunk}
    (hone : ∀ ch : Char, tc [ch] ≤ cfg.maxChunkTokens)
    (h : applyForcedSplitting cfg tc tok text = .ok out) :
    ∀ c ∈ out, ChunkGood cfg.maxChunkTokens tc tok c := by
  unfold applyForcedSplitting at h
  by_cases hf : !cfg.enableForcedSplitting
  · rw [if_pos hf] at h
    cases h
  · rw [if_neg hf] at h
    exact forcedLoop_good hone _ 0 [] out (by intro c hc; cases hc) h

theorem spliceForced_good {mx : Nat} {tc : List Char → Nat} {tok : List Char → List Nat} :
    ∀ (forced chunks : List HierarchicalChunk) (ccp : Nat),
      (∀ c ∈ chunks, ChunkGood mx tc tok c) →
      (∀ c ∈ forced, ChunkGood mx tc tok c) →
      ∀ c ∈ (spliceForced chunks ccp forced).1, ChunkGood mx tc tok c
  | [], chunks, ccp, hc, _ => by
    simpa [spliceForced] using hc
  | f :: fs, chunks, ccp, hc, hf => by
    have hstep : spliceForced chunks ccp (f :: fs) =
        spliceForced (chunks ++ [adjustChunkCharPositions f ccp])
          (ccp + byteLen f.content) fs := by
      simp [spliceForced]
    rw [hstep]
    refine spliceForced_good fs _ _ ?_ (fun c hcm => hf c (List.mem_cons_of_mem f hcm))
    intro c hcm
    rcases List.mem_append.mp hcm with h1 | h1
    · exact hc c h1
    · rcases List.mem_singleton.mp h1 with rfl
      exact hf f (List.mem_cons_self f fs)

theorem joinSep_snoc (sep st : List Char) :
    ∀ cur : List (List Char), joinSep sep (cur ++ [st]) =
      if cur.isEmpty then st else joinSep sep cur ++ sep ++ st
  | [] => by simp [joinSep]
  | [x] => by simp [joinSep]
  | x :: y :: xs => by
    have ih := joinSep_snoc sep st (y :: xs)
    simp only [List.isEmpty_cons, Bool.false_eq_true, if_false] at ih ⊢
    show x ++ sep ++ joinSep sep ((y :: xs) ++ [st]) = _
    rw [ih]
    simp [joinSep, List.append_assoc]

theorem sentFinalizeCur_good {mx : Nat} {tc : List Char → Nat} {tok : List Char → List Nat}
    {chunks : List HierarchicalChunk} {cur : List (List Char)} {ccp : Nat}
    (hc : ∀ c ∈ chunks, ChunkGood mx tc tok c)
    (hcur : ¬cur.isEmpty → tc (joinSep spaceSep cur) ≤ mx) :
    ∀ c ∈ (sentFinalizeCur tok chunks cur ccp).1, ChunkGood mx tc tok c := by
  unfold sentFinalizeCur
  by_cases he : cur.isEmpty
  · rw [if_pos he]
    exact hc
  · rw [if_neg he]
    intro c hcm
    rcases List.mem_append.mp hcm with h1 | h1
    · exact hc c h1
    · rcases List.mem_singleton.mp h1 with rfl
      exact ⟨rfl, hcur he⟩

theorem sentLoop_good {cfg : HierarchicalChunkingConfig} {tc : List Char → Nat}
    {tok : List Char → List Nat}
    (hone : ∀ ch : Char, tc [ch] ≤ cfg.maxChunkTokens) :
    ∀ (ss : List (List Char)) (chunks : List HierarchicalChunk) (cur : List (List Char))
      (ccp : Nat) (out : List HierarchicalChunk × List (List Char) × Nat),
      (∀ c ∈ chunks, ChunkGood cfg.maxChunkTokens tc tok c) →
      (¬cur.isEmpty → tc (joinSep spaceSep cur) ≤ cfg.maxChunkTokens) →
      sentLoop cfg tc tok ss chunks cur ccp = .ok out →
      (∀ c ∈ out.1, ChunkGood cfg.maxChunkTokens tc tok c) ∧
      (¬out.2.1.isEmpty → tc (joinSep spaceSep out.2.1) ≤ cfg.maxChunkTokens)
  | [], chunks, cur, ccp, out, hch, hcur, h => by
    cases h
    exact ⟨hch, hcur⟩
  | s :: rest, chunks, cur, ccp, out, hch, hcur, h => by
    unfold sentLoop at h
    by_cases hemp : (rustTrim s).isEmpty
    · rw [if_pos hemp] at h
      exact sentLoop_good hone rest chunks cur ccp out hch hcur h
    · rw [if_neg hemp] at h
      by_cases hcomb : tc (sentCombined cur (rustTrim s)) ≤ cfg.maxChunkTokens
      · rw [if_pos hcomb] at h
        refine sentLoop_good hone rest chunks (cur ++ [rustTrim s]) ccp out hch ?_ h
        intro _
        rw [joinSep_snoc]
        unfold sentCombined at hcomb
        by_cases hce : cur.isEmpty
        · rw [if_pos hce]
          rw [if_pos hce] at hcomb
          exact hcomb
        · rw [if_neg hce]
          rw [if_neg hce] at hcomb
          exact hcomb
      · rw [if_neg hcomb] at h
        by_cases hsingle : cfg.maxChunkTokens < tc (rustTrim s)
        · rw [if_pos hsingle] at h
          cases hforced : applyForcedSplitting cfg tc tok (rustTrim s) with
          | error e => rw [hforced] at h; cases h
          | ok forcedCs =>
            rw [hforced] at h
            refine sentLoop_good hone rest _ [] _ out ?_ (by simp) h
            exact spliceForced_good forcedCs _ _
              (sentFinalizeCur_good hch hcur)
              (applyForcedSplitting_good hone hforced)
        · rw [if_neg hsingle] at h
          refine sentLoop_good hone rest _ [rustTrim s] _ out
            (sentFinalizeCur_good hch hcur) ?_ h
          intro _
          simpa [joinSep] using Nat.le_of_not_lt hsingle

theorem splitParagraphBySentences_good {cfg : HierarchicalChunkingConfig}
    {tc : List Char → Nat} {tok : List Char → List Nat} {paragraph : List Char}
    {out : List HierarchicalChunk}
    (hone : ∀ ch : Char, tc [ch] ≤ cfg.maxChunkTokens)
    (h : splitParagraphBySentences cfg tc tok paragraph = .ok out) :
    ∀ c ∈ out, ChunkGood cfg.maxChunkTokens tc tok c := by
  unfold splitParagraphBySentences at h
  by_cases hsent : !cfg.enableSentenceSplitting
  · rw [if_pos hsent] at h
    exact applyForcedSplitting_good hone h
  · rw [if_neg hsent] at h
    cases hloop : sentLoop cfg tc tok (sentenceSplit paragraph) [] [] 0 with
    | error e => rw [hloop] at h; cases h
    | ok st =>
      obtain ⟨chunks, cur, ccp⟩ := st
      have hst := sentLoop_good hone (sentenceSplit paragraph) [] [] 0 (chunks, cur, ccp)
        (by intro c hc; cases hc) (by intro hne; simp at hne) hloop
      simp only [hloop] at h
      by_cases hce : cur.isEmpty
      · rw [if_pos hce] at h
        cases h
        exact hst.1
      · rw [if_neg hce] at h
        by_cases htr : tc (joinSep spaceSep cur) ≤ cfg.maxChunkTokens
        · rw [if_pos htr] at h
          cases h
          intro c hc
          rcases List.mem_append.mp hc with h1 | h1
          · exact hst.1 c h1
          · rcases List.mem_singleton.mp h1 with rfl
            exact ⟨rfl, htr⟩
        · rw [if_neg htr] at h
          cases hforced : applyForcedSplitting cfg tc tok (joinSep spaceSep cur) with
          | error e => rw [hforced] at h; cases h
          | ok forcedCs =>
            rw [hforced] at h
            cases h
            exact spliceForced_good forcedCs chunks ccp hst.1
              (applyForcedSplitting_good hone hforced)

theorem mergeFinalizeCur_good {mx : Nat} {tc : List Char → Nat} {tok : List Char → List Nat}
    {cur : List (List Char)} {acc : List HierarchicalChunk}
    (hacc : ∀ c ∈ acc, ChunkGood mx tc tok c)
    (hcur : ¬cur.isEmpty → tc (joinSep nlSep cur) ≤ mx) :
    ∀ c ∈ mergeFinalizeCur tok cur acc, ChunkGood mx tc tok c := by
  unfold mergeFinalizeCur
  by_cases he : cur.isEmpty
  · rw [if_pos he]
    exact hacc
  · rw [if_neg he]
    intro c hcm
    rcases List.mem_append.mp hcm with h1 | h1
    · exact hacc c h1
    · rcases List.mem_singleton.mp h1 with rfl
      exact ⟨rfl, hcur he⟩

theorem mergeLoop_good {cfg : HierarchicalChunkingConfig} {tc : List Char → Nat}
    {tok : List Char → List Nat} :
    ∀ (pend : List (List Char × List Nat)) (cur : List (List Char))
      (acc : List HierarchicalChunk),
      (∀ pr ∈ pend, tc pr.1 ≤ cfg.maxChunkTokens) →
      (∀ c ∈ acc, ChunkGood cfg.maxChunkTokens tc tok c) →
      (¬cur.isEmpty → tc (joinSep nlSep cur) ≤ cfg.maxChunkTokens) →
      ∀ c ∈ mergeLoop cfg tc tok pend cur acc, ChunkGood cfg.maxChunkTokens tc tok c
  | [], cur, acc, hpend, hacc, hcur => by
    unfold mergeLoop
    exact mergeFinalizeCur_good hacc hcur
  | (p, ptoks) :: rest, cur, acc, hpend, hacc, hcur => by
    unfold mergeLoop
    by_cases hcomb : tc (mergeCombined cur p) ≤ cfg.maxChunkTokens
    · rw [if_pos hcomb]
      refine mergeLoop_good rest (cur ++ [p]) acc
        (fun pr hpr => hpend pr (List.mem_cons_of_mem _ hpr)) hacc ?_
      intro _
      rw [show joinSep nlSep (cur ++ [p]) =
          if cur.isEmpty then p else joinSep nlSep cur ++ nlSep ++ p from joinSep_snoc nlSep p cur]
      unfold mergeCombined at hcomb
      exact hcomb
    · rw [if_neg hcomb]
      refine mergeLoop_good rest [p] (mergeFinalizeCur tok cur acc)
        (fun pr hpr => hpend pr (List.mem_cons_of_mem _ hpr))
        (mergeFinalizeCur_good hacc hcur) ?_
      intro _
      simpa [joinSep] using hpend (p, ptoks) (List.mem_cons_self _ _)

theorem mem_appendWithIndex :
    ∀ {cs acc : List HierarchicalChunk} {c : HierarchicalChunk},
      c ∈ appendWithIndex acc cs →
      c ∈ acc ∨ ∃ c0 ∈ cs, ∃ n, c = setChunkIndex c0 n := by
  intro cs
  induction cs with
  | nil => intro acc c h; exact Or.inl (by simpa [appendWithIndex] using h)
  | cons c0 rest ih =>
    intro acc c h
    have hstep : appendWithIndex acc (c0 :: rest) =
        appendWithIndex (acc ++ [setChunkIndex c0 acc.length]) rest := by
      simp [appendWithIndex]
    rw [hstep] at h
    rcases ih h with h1 | h1
    · rcases List.mem_append.mp h1 with h2 | h2
      · exact Or.inl h2
      · rcases List.mem_singleton.mp h2 with rfl
        exact Or.inr ⟨c0, List.mem_cons_self _ _, acc.length, rfl⟩
    · obtain ⟨c1, hc1, n, rfl⟩ := h1
      exact Or.inr ⟨c1, List.mem_cons_of_mem _ hc1, n, rfl⟩

theorem chunkGood_setChunkIndex {mx : Nat} {tc : List Char → Nat}
    {tok : List Char → List Nat} {c : HierarchicalChunk} {n : Nat}
    (h : ChunkGood mx tc tok c) : ChunkGood mx tc tok (setChunkIndex c n) := h

/-- Invariant of the paragraph loop: all emitted chunks are good, and the
pending list holds (trimmed content, its tokenisation) pairs whose token
count is strictly below the minimum. -/
theorem processParagraphs_good {cfg : HierarchicalChunkingConfig}
    {tc : List Char → Nat} {tok : List Char → List Nat}
    (hone : ∀ ch : Char, tc [ch] ≤ cfg.maxChunkTokens) :
    ∀ (paras : List ParagraphInfo) (acc : List HierarchicalChunk)
      (pend : List (List Char × List Nat))
      (out : List HierarchicalChunk × List (List Char × List Nat)),
      (∀ c ∈ acc, ChunkGood cfg.maxChunkTokens tc tok c) →
      (∀ pr ∈ pend, pr.2 = tok pr.1 ∧ tc pr.1 < cfg.minChunkTokens) →
      processParagraphs cfg tc tok paras acc pend = .ok out →
      (∀ c ∈ out.1, ChunkGood cfg.maxChunkTokens tc tok c) ∧
      (∀ pr ∈ out.2, pr.2 = tok pr.1 ∧ tc pr.1 < cfg.minChunkTokens)
  | [], acc, pend, out, hacc, hpend, h => by
    cases h
    exact ⟨hacc, hpend⟩
  | p :: rest, acc, pend, out, hacc, hpend, h => by
    unfold processParagraphs at h
    by_cases hemp : (rustTrim p.content).isEmpty
    · rw [if_pos hemp] at h
      exact processParagraphs_good hone rest acc pend out hacc hpend h
    · rw [if_neg hemp] at h
      by_cases hmax : tc (rustTrim p.content) ≤ cfg.maxChunkTokens
      · rw [if_pos hmax] at h
        by_cases hmin : cfg.minChunkTokens ≤ tc (rustTrim p.content)
        · rw [if_pos hmin] at h
          refine processParagraphs_good hone rest _ pend out ?_ hpend h
          intro c hc
          rcases List.mem_append.mp hc with h1 | h1
          · exact hacc c h1
          · rcases List.mem_singleton.mp h1 with rfl
            exact ⟨rfl, hmax⟩
        · rw [if_neg hmin] at h
          refine processParagraphs_good hone rest acc _ out hacc ?_ h
          intro pr hpr
          rcases List.mem_append.mp hpr with h1 | h1
          · exact hpend pr h1
          · rcases List.mem_singleton.mp h1 with rfl
            exact ⟨rfl, show tc (rustTrim p.content) < cfg.minChunkTokens by omega⟩
      · rw [if_neg hmax] at h
        cases hsplit : splitParagraphBySentences cfg tc tok (rustTrim p.content) with
        | error e => rw [hsplit] at h; cases h
        | ok cs =>
          rw [hsplit] at h
          refine processParagraphs_good hone rest _ pend out ?_ hpend h
          intro c hc
          rcases mem_appendWithIndex hc with h1 | h1
          · exact hacc c h1
          · obtain ⟨c0, hc0, n, rfl⟩ := h1
            exact chunkGood_setChunkIndex
              (splitParagraphBySentences_good hone hsplit c0 hc0)

/-- All chunks entering position adjustment are good (needs the validated
bound min < max so that pending small paragraphs are within budget). -/
theorem pendingStep_good {cfg : HierarchicalChunkingConfig}
    {tc : List Char → Nat} {tok : List Char → List Nat}
    {cs : List HierarchicalChunk} {pend : List (List Char × List Nat)}
    (hminmax : cfg.minChunkTokens ≤ cfg.maxChunkTokens)
    (hcs : ∀ c ∈ cs, ChunkGood cfg.maxChunkTokens tc tok c)
    (hpend : ∀ pr ∈ pend, pr.2 = tok pr.1 ∧ tc pr.1 < cfg.minChunkTokens) :
    ∀ c ∈ pendingStep cfg tc tok cs pend, ChunkGood cfg.maxChunkTokens tc tok c := by
  unfold pendingStep
  by_cases hm : cfg.enableParagraphMerging && !pend.isEmpty
  · rw [if_pos hm]
    intro c hc
    rcases mem_appendWithIndex hc with h1 | h1
    · exact hcs c h1
    · obtain ⟨c0, hc0, n, rfl⟩ := h1
      refine chunkGood_setChunkIndex
        (mergeLoop_good pend [] [] ?_ (by intro c hc2; cases hc2) (by simp) c0 hc0)
      intro pr hpr
      have := hpend pr hpr
      omega
  · rw [if_neg hm]
    -- the individual-emission fold
    have hgen : ∀ (ps : List (List Char × List Nat)) (a : List HierarchicalChunk),
        (∀ c ∈ a, ChunkGood cfg.maxChunkTokens tc tok c) →
        (∀ pr ∈ ps, pr.2 = tok pr.1 ∧ tc pr.1 < cfg.minChunkTokens) →
        ∀ c ∈ ps.foldl (fun a pr =>
            a ++ [⟨pr.1, pr.2, 0, byteLen pr.1, .completeParagraph, a.length⟩]) a,
          ChunkGood cfg.maxChunkTokens tc tok c := by
      intro ps
      induction ps with
      | nil => intro a ha _ c hc; exact ha c (by simpa using hc)
      | cons pr rest ih =>
        intro a ha hps c hc
        simp only [List.foldl_cons] at hc
        refine ih _ ?_ (fun q hq => hps q (List.mem_cons_of_mem _ hq)) c hc
        intro c2 hc2
        rcases List.mem_append.mp hc2 with h1 | h1
        · exact ha c2 h1
        · rcases List.mem_singleton.mp h1 with rfl
          have := hps pr (List.mem_cons_self _ _)
          exact ⟨this.1, show tc pr.1 ≤ cfg.maxChunkTokens by omega⟩
    exact hgen pend cs hcs hpend

theorem utf8Size_le_four (c : Char) : c.utf8Size ≤ 4 := by
  simp only [Char.utf8Size]
  split_ifs <;> omega

theorem estimation_one_char_le {cfg : HierarchicalChunkingConfig}
    (hmax : 0 < cfg.maxChunkTokens) (ch : Char) :
    fallbackEstimate .characterEstimation [ch] ≤ cfg.maxChunkTokens := by
  have h4 : ch.utf8Size ≤ 4 := utf8Size_le_four ch
  have hb : byteLen [ch] = ch.utf8Size := by simp [byteLen]
  simp only [fallbackEstimate]
  rw [hb]
  have : (ch.utf8Size + 3) / 4 ≤ 1 := by omega
  omega

theorem validateOk_bounds {cfg : HierarchicalChunkingConfig}
    (hv : cfg.validateOk = true) :
    0 < cfg.maxChunkTokens ∧ cfg.minChunkTokens < cfg.maxChunkTokens := by
  unfold HierarchicalChunkingConfig.validateOk at hv
  simp only [Bool.and_eq_true, decide_eq_true_eq] at hv
  exact ⟨hv.1.1, hv.1.2⟩

/-- Claim C1 (amended): under the CharacterEstimation fallback (the default
strategy, and the only one whose per-character estimate is within any
positive budget), every chunk of a successful chunk_efficiently run on a
validated configuration satisfies tokens.len() ≤ max_chunk_tokens and
tokens.len() ≥ min_chunk_tokens.  (As stated over every fallback strategy the
claim fails: under CharacterLimit a single multi-byte character already
exceeds a small budget, see c1_counterexample_character_limit.) -/
theorem c1_token_bounds (cfg : HierarchicalChunkingConfig) (o : CacheOracle)
    (text : List Char) (cs : List HierarchicalChunk)
    (hv : cfg.validateOk = true)
    (ho : ValidCacheOracle .characterEstimation o)
    (h : chunkEfficiently cfg .characterEstimation o text = .ok cs) :
    ∀ c ∈ cs, c.tokens.length ≤ cfg.maxChunkTokens ∧
      cfg.minChunkTokens ≤ c.tokens.length := by
  have h2 : chunkCore cfg (calculateTokenCount .characterEstimation o)
      (tokenizeText .characterEstimation o) text = .ok cs := h
  rw [calculateTokenCount_valid ho, tokenizeText_valid ho] at h2
  obtain ⟨hmax, hminmax⟩ := validateOk_bounds hv
  have hone : ∀ ch : Char,
      fallbackEstimate .characterEstimation [ch] ≤ cfg.maxChunkTokens :=
    estimation_one_char_le hmax
  rcases chunkCore_ok_inv h2 with rfl | ⟨paras, cs1, pend, adjusted, _, hp, ha, rfl⟩
  · intro c hc; cases hc
  · intro c hc
    obtain ⟨c0, hc0, hcnt, htk, _, _, _, hmin⟩ := mem_finalizeChunks hc
    obtain ⟨c1, hc1, hcnt1, htk1, _⟩ := adjust_preserves _ 0 _ ha c0 hc0
    have hgood : ChunkGood cfg.maxChunkTokens (fallbackEstimate .characterEstimation)
        (fallbackTokens .characterEstimation) c1 := by
      have hpg := processParagraphs_good hone paras [] [] (cs1, pend)
        (by intro c hc2; cases hc2) (by intro pr hpr; cases hpr) hp
      exact pendingStep_good (Nat.le_of_lt hminmax) hpg.1 hpg.2 c1 hc1
    constructor
    · rw [htk, htk1, hgood.1]
      unfold fallbackTokens
      rw [List.length_range']
      calc fallbackEstimate .characterEstimation c1.content % 4294967296
          ≤ fallbackEstimate .characterEstimation c1.content := Nat.mod_le _ _
        _ ≤ cfg.maxChunkTokens := hgood.2
    · rw [htk]
      exact hmin

/-- Claim C10: with no token provider and the CharacterEstimation fallback,
the token sequence attached to every chunk is the synthetic consecutive
sequence 1, 2, ..., ceil(byte_length(content) / 4) — dummy identifiers whose
count is the byte-based estimate, not a real tokenisation.  (The source casts
the count to u32, so the hypothesis that the estimate fits in 32 bits is
required; it can only fail for chunk contents of at least 2^34 bytes.) -/
theorem c10_fallback_dummy_tokens (cfg : HierarchicalChunkingConfig)
    (o : CacheOracle) (text : List Char) (cs : List HierarchicalChunk)
    (hv : cfg.validateOk = true)
    (ho : ValidCacheOracle .characterEstimation o)
    (h : chunkEfficiently cfg .characterEstimation o text = .ok cs) :
    ∀ c ∈ cs, (byteLen c.content + 3) / 4 < 4294967296 →
      c.tokens = List.range' 1 ((byteLen c.content + 3) / 4) := by
  have h2 : chunkCore cfg (calculateTokenCount .characterEstimation o)
      (tokenizeText .characterEstimation o) text = .ok cs := h
  rw [calculateTokenCount_valid ho, tokenizeText_valid ho] at h2
  obtain ⟨hmax, hminmax⟩ := validateOk_bounds hv
  have hone : ∀ ch : Char,
      fallbackEstimate .characterEstimation [ch] ≤ cfg.maxChunkTokens :=
    estimation_one_char_le hmax
  rcases chunkCore_ok_inv h2 with rfl | ⟨paras, cs1, pend, adjusted, _, hp, ha, rfl⟩
  · intro c hc; cases hc
  · intro c hc hsmall
    obtain ⟨c0, hc0, hcnt, htk, _, _, _, _⟩ := mem_finalizeChunks hc
    obtain ⟨c1, hc1, hcnt1, htk1, _⟩ := adjust_preserves _ 0 _ ha c0 hc0
    have hgood : ChunkGood cfg.maxChunkTokens (fallbackEstimate .characterEstimation)
        (fallbackTokens .characterEstimation) c1 := by
      have hpg := processParagraphs_good hone paras [] [] (cs1, pend)
        (by intro c hc2; cases hc2) (by intro pr hpr; cases hpr) hp
      exact pendingStep_good (Nat.le_of_lt hminmax) hpg.1 hpg.2 c1 hc1
    have hcc : c.content = c1.content := by rw [hcnt, hcnt1]
    rw [htk, htk1, hgood.1]
    unfold fallbackTokens fallbackEstimate
    rw [← hcc]
    rw [Nat.mod_eq_of_lt hsmall]

theorem processParagraphs_pend_mono {cfg : HierarchicalChunkingConfig}
    {tc : List Char → Nat} {tok : List Char → List Nat} :
    ∀ (paras : List ParagraphInfo) (acc : List HierarchicalChunk)
      (pend : List (List Char × List Nat))
      (out : List HierarchicalChunk × List (List Char × List Nat)),
      processParagraphs cfg tc tok paras acc pend = .ok out →
      ∀ pr ∈ pend, pr ∈ out.2
  | [], acc, pend, out, h => by cases h; exact fun pr hpr => hpr
  | p :: rest, acc, pend, out, h => by
    unfold processParagraphs at h
    by_cases hemp : (rustTrim p.content).isEmpty
    · rw [if_pos hemp] at h
      exact processParagraphs_pend_mono rest acc pend out h
    · rw [if_neg hemp] at h
      by_cases hmax : tc (rustTrim p.content) ≤ cfg.maxChunkTokens
      · rw [if_pos hmax] at h
        by_cases hmin : cfg.minChunkTokens ≤ tc (rustTrim p.content)
        · rw [if_pos hmin] at h
          exact processParagraphs_pend_mono rest _ pend out h
        · rw [if_neg hmin] at h
          intro pr hpr
          exact processParagraphs_pend_mono rest acc _ out h pr
            (List.mem_append.mpr (Or.inl hpr))
      · rw [if_neg hmax] at h
        cases hsplit : splitParagraphBySentences cfg tc tok (rustTrim p.content) with
        | error e => rw [hsplit] at h; cases h
        | ok cs =>
          rw [hsplit] at h
          exact processParagraphs_pend_mono rest _ pend out h

theorem processParagraphs_small_mem {cfg : HierarchicalChunkingConfig}
    {tc : List Char → Nat} {tok : List Char → List Nat} :
    ∀ (paras : List ParagraphInfo) (acc : List HierarchicalChunk)
      (pend : List (List Char × List Nat))
      (out : List HierarchicalChunk × List (List Char × List Nat)),
      processParagraphs cfg tc tok paras acc pend = .ok out →
      ∀ p ∈ paras, ¬(rustTrim p.content).isEmpty →
        tc (rustTrim p.content) ≤ cfg.maxChunkTokens →
        tc (rustTrim p.content) < cfg.minChunkTokens →
        (rustTrim p.content, tok (rustTrim p.content)) ∈ out.2
  | [], acc, pend, out, h => by intro p hp; cases hp
  | p0 :: rest, acc, pend, out, h => by
    intro p hp hemp hmax hmin
    rcases List.mem_cons.mp hp with rfl | hp2
    · unfold processParagraphs at h
      rw [if_neg hemp, if_pos hmax, if_neg (by omega)] at h
      exact processParagraphs_pend_mono rest acc _ out h _
        (List.mem_append.mpr (Or.inr (List.mem_singleton.mpr rfl)))
    · unfold processParagraphs at h
      by_cases hemp0 : (rustTrim p0.content).isEmpty
      · rw [if_pos hemp0] at h
        exact processParagraphs_small_mem rest acc pend out h p hp2 hemp hmax hmin
      · rw [if_neg hemp0] at h
        by_cases hmax0 : tc (rustTrim p0.content) ≤ cfg.maxChunkTokens
        · rw [if_pos hmax0] at h
          by_cases hmin0 : cfg.minChunkTokens ≤ tc (rustTrim p0.content)
          · rw [if_pos hmin0] at h
            exact processParagraphs_small_mem rest _ pend out h p hp2 hemp hmax hmin
          · rw [if_neg hmin0] at h
            exact processParagraphs_small_mem rest acc _ out h p hp2 hemp hmax hmin
        · rw [if_neg hmax0] at h
          cases hsplit : splitParagraphBySentences cfg tc tok (rustTrim p0.content) with
          | error e => rw [hsplit] at h; cases h
          | ok cs =>
            rw [hsplit] at h
            exact processParagraphs_small_mem rest _ pend out h p hp2 hemp hmax hmin

theorem pendingStep_disabled_mem {cfg : HierarchicalChunkingConfig}
    {tc : List Char → Nat} {tok : List Char → List Nat}
    {cs : List HierarchicalChunk} {pend : List (List Char × List Nat)}
    (hm : cfg.enableParagraphMerging = false) :
    ∀ pr ∈ pend, ∃ c ∈ pendingStep cfg tc tok cs pend,
      c.content = pr.1 ∧ c.tokens = pr.2 ∧ c.chunkType = .completeParagraph := by
  unfold pendingStep
  rw [if_neg (by simp [hm])]
  have hmono : ∀ (ps : List (List Char × List Nat)) (a : List HierarchicalChunk),
      ∀ c ∈ a, c ∈ ps.foldl (fun a pr =>
        a ++ [⟨pr.1, pr.2, 0, byteLen pr.1, .completeParagraph, a.length⟩]) a := by
    intro ps
    induction ps with
    | nil => intro a c hc; simpa using hc
    | cons pr rest ih =>
      intro a c hc
      simp only [List.foldl_cons]
      exact ih _ c (List.mem_append.mpr (Or.inl hc))
  have hgen : ∀ (ps : List (List Char × List Nat)) (a : List HierarchicalChunk),
      ∀ pr ∈ ps, ∃ c ∈ ps.foldl (fun a pr =>
          a ++ [⟨pr.1, pr.2, 0, byteLen pr.1, .completeParagraph, a.length⟩]) a,
        c.content = pr.1 ∧ c.tokens = pr.2 ∧ c.chunkType = .completeParagraph := by
    intro ps
    induction ps with
    | nil => intro a pr hpr; cases hpr
    | cons pr0 rest ih =>
      intro a pr hpr
      rcases List.mem_cons.mp hpr with rfl | hpr2
      · refine ⟨⟨pr.1, pr.2, 0, byteLen pr.1, .completeParagraph, a.length⟩, ?_, rfl, rfl, rfl⟩
        simp only [List.foldl_cons]
        exact hmono rest _ _ (List.mem_append.mpr (Or.inr (List.mem_singleton.mpr rfl)))
      · simp only [List.foldl_cons]
        exact ih _ pr hpr2
  exact hgen pend cs

/-- Claim C2 (amended): with paragraph merging disabled, every detected
paragraph whose token count is at most max_chunk_tokens but below
min_chunk_tokens is emitted as a CompleteParagraph chunk into the
intermediate chunk list of chunk_efficiently (no loss at the emission step) —
but the final minimum-token filter then drops every chunk whose token count
is below min_chunk_tokens, so such a paragraph is NOT present in the final
output (see c2_counterexample_small_paragraph_dropped for the original
claim's refutation). -/
theorem c2_small_paragraph_emitted_then_filtered (cfg : HierarchicalChunkingConfig)
    (strat : FallbackStrategy) (o : CacheOracle) (text : List Char)
    (paras : List ParagraphInfo) (cs1 : List HierarchicalChunk)
    (pend : List (List Char × List Nat))
    (hm : cfg.enableParagraphMerging = false)
    (_hd : detectParagraphBoundaries text = .ok paras)
    (hp : processParagraphs cfg (calculateTokenCount strat o)
      (tokenizeText strat o) paras [] [] = .ok (cs1, pend)) :
    (∀ p ∈ paras, ¬(rustTrim p.content).isEmpty →
      calculateTokenCount strat o (rustTrim p.content) ≤ cfg.maxChunkTokens →
      calculateTokenCount strat o (rustTrim p.content) < cfg.minChunkTokens →
      ∃ c ∈ pendingStep cfg (calculateTokenCount strat o) (tokenizeText strat o) cs1 pend,
        c.content = rustTrim p.content ∧ c.chunkType = .completeParagraph) ∧
    (∀ cs, chunkEfficiently cfg strat o text = .ok cs →
      ∀ c ∈ cs, cfg.minChunkTokens ≤ c.tokens.length) := by
  constructor
  · intro p hpmem hemp hmax hmin
    have hpend := processParagraphs_small_mem paras [] [] (cs1, pend) hp p hpmem hemp hmax hmin
    obtain ⟨c, hc, h1, h2, h3⟩ := pendingStep_disabled_mem hm _ hpend
    exact ⟨c, hc, h1, h3⟩
  · intro cs hcs c hc
    have h2 : chunkCore cfg (calculateTokenCount strat o) (tokenizeText strat o) text =
        .ok cs := hcs
    rcases chunkCore_ok_inv h2 with rfl | ⟨paras2, cs2, pend2, adjusted, _, _, _, rfl⟩
    · cases hc
    · obtain ⟨c0, _, _, htk, _, _, _, hmin⟩ := mem_finalizeChunks hc
      rw [htk]
      exact hmin

/-- Claim C1 counterexample: with the CharacterLimit fallback strategy and
the validated configuration (max 2, min 1), chunk_efficiently on the
three-character text あああ SUCCEEDS, yet not every returned chunk satisfies
tokens.len() ≤ max_chunk_tokens (each chunk is one three-byte character with
3 dummy tokens).  The claim as stated over every fallback strategy is
therefore false. -/
theorem c1_counterexample_character_limit :
    HierarchicalChunkingConfig.validateOk ⟨2, 1, true, true, true⟩ = true ∧
    (chunkEfficiently ⟨2, 1, true, true, true⟩ .characterLimit emptyOracle
        "あああ".data).map (fun cs => cs.all (fun c => c.tokens.length ≤ 2)) =
      .ok false :=
  ⟨rfl, rfl⟩

/-- Claim C2 counterexample: with merging disabled (max 100, min 50), the
text hello is detected as one paragraph of 2 estimated tokens (≤ max, < min),
yet the final output of chunk_efficiently is EMPTY: the small paragraph is
not present as a CompleteParagraph chunk — the min-token post-filter removed
it. -/
theorem c2_counterexample_small_paragraph_dropped :
    detectParagraphBoundaries "hello".data =
      .ok [⟨"hello".data, 0, 5⟩] ∧
    calculateTokenCount .characterEstimation emptyOracle "hello".data = 2 ∧
    ((2 : Nat) ≤ 100 ∧ (2 : Nat) < 50) ∧
    chunkEfficiently ⟨100, 50, false, true, true⟩ .characterEstimation emptyOracle
      "hello".data = .ok [] :=
  ⟨rfl, rfl, by decide, rfl⟩

/-- Claim C4 counterexample: on the two-character (six-byte) text ああ, the
single returned chunk has char_end = 6, which exceeds the CHARACTER length 2
of the input: the positions produced by the string-search reconciliation are
byte offsets, so the claimed bound by the character length of the input is
false. -/
theorem c4_counterexample_char_length :
    ("ああ".data).length = 2 ∧
    (chunkEfficiently ⟨100, 1, true, true, true⟩ .characterEstimation emptyOracle
        "ああ".data).map (fun cs => cs.all (fun c => c.charEnd ≤ ("ああ".data).length)) =
      .ok false :=
  ⟨rfl, rfl⟩

theorem emptyOracle_valid (strat : FallbackStrategy) :
    ValidCacheOracle strat emptyOracle := by
  unfold ValidCacheOracle
  refine ⟨fun t n h => ?_, fun t l h => ?_⟩ <;> simp [emptyOracle] at h

/-- A cache oracle holding one (correct) entry, as after tokenising the text
below once. -/
def demoEstC (t : List Char) : Option Nat :=
  if t = "hello world.".data then some 3 else none

/-- Token-list part of the demo oracle. -/
def demoTokC (t : List Char) : Option (List Nat) :=
  if t = "hello world.".data then some [1, 2, 3] else none

/-- The demo oracle itself. -/
def demoOracle : CacheOracle := ⟨demoEstC, demoTokC⟩

theorem demoOracle_valid : ValidCacheOracle .characterEstimation demoOracle := by
  constructor
  · intro t n h
    have h2 : demoEstC t = some n := h
    unfold demoEstC at h2
    by_cases ht : t = "hello world.".data
    · rw [if_pos ht] at h2
      cases h2
      rw [ht]
      rfl
    · rw [if_neg ht] at h2
      cases h2
  · intro t l h
    have h2 : demoTokC t = some l := h
    unfold demoTokC at h2
    by_cases ht : t = "hello world.".data
    · rw [if_pos ht] at h2
      cases h2
      rw [ht]
      rfl
    · rw [if_neg ht] at h2
      cases h2

theorem c1_token_bounds_witness :
    HierarchicalChunkingConfig.validateOk ⟨100, 2, true, true, true⟩ = true ∧
    chunkEfficiently ⟨100, 2, true, true, true⟩ .characterEstimation emptyOracle
      "hello world.".data =
      .ok [⟨"hello world.".data, [1, 2, 3], 0, 12, .completeParagraph, 0⟩] ∧
    ((⟨"hello world.".data, [1, 2, 3], 0, 12, .completeParagraph, 0⟩ :
        HierarchicalChunk).tokens.length ≤ 100 ∧
      2 ≤ (⟨"hello world.".data, [1, 2, 3], 0, 12, .completeParagraph, 0⟩ :
        HierarchicalChunk).tokens.length) :=
  ⟨rfl, rfl,
    c1_token_bounds ⟨100, 2, true, true, true⟩ emptyOracle "hello world.".data
      [⟨"hello world.".data, [1, 2, 3], 0, 12, .completeParagraph, 0⟩] rfl
      (emptyOracle_valid _) rfl _ (List.mem_singleton.mpr rfl)⟩

theorem c2_witness :
    (⟨100, 50, false, true, true⟩ :
        HierarchicalChunkingConfig).enableParagraphMerging = false ∧
    detectParagraphBoundaries "hello".data = .ok [⟨"hello".data, 0, 5⟩] ∧
    processParagraphs ⟨100, 50, false, true, true⟩
      (calculateTokenCount .characterEstimation emptyOracle)
      (tokenizeText .characterEstimation emptyOracle)
      [⟨"hello".data, 0, 5⟩] [] [] = .ok ([], [("hello".data, [1, 2])]) ∧
    (∃ c ∈ pendingStep ⟨100, 50, false, true, true⟩
        (calculateTokenCount .characterEstimation emptyOracle)
        (tokenizeText .characterEstimation emptyOracle) [] [("hello".data, [1, 2])],
      c.content = rustTrim "hello".data ∧ c.chunkType = .completeParagraph) :=
  ⟨rfl, rfl, rfl,
    (c2_small_paragraph_emitted_then_filtered ⟨100, 50, false, true, true⟩
        .characterEstimation emptyOracle "hello".data [⟨"hello".data, 0, 5⟩] []
        [("hello".data, [1, 2])] rfl rfl rfl).1
      ⟨"hello".data, 0, 5⟩ (List.mem_singleton.mpr rfl) (by decide) (by decide)
      (by decide)⟩

theorem c3_witness :
    chunkEfficiently ⟨100, 2, true, true, true⟩ .characterEstimation emptyOracle
      "hello world.".data =
      .ok [⟨"hello world.".data, [1, 2, 3], 0, 12, .completeParagraph, 0⟩] ∧
    ([⟨"hello world.".data, [1, 2, 3], 0, 12, .completeParagraph, 0⟩] :
      List HierarchicalChunk).Pairwise chunkLe ∧
    ([⟨"hello world.".data, [1, 2, 3], 0, 12, .completeParagraph, 0⟩] :
      List HierarchicalChunk)[0].chunkIndex = 0 :=
  ⟨rfl,
    (c3_sorted_and_indexed ⟨100, 2, true, true, true⟩ .characterEstimation emptyOracle
      "hello world.".data _ rfl).1,
    (c3_sorted_and_indexed ⟨100, 2, true, true, true⟩ .characterEstimation emptyOracle
      "hello world.".data _ rfl).2 0 (by decide)⟩

theorem c4_witness :
    chunkEfficiently ⟨100, 1, true, true, true⟩ .characterEstimation emptyOracle
      "ああ".data = .ok [⟨"ああ".data, [1, 2], 0, 6, .completeParagraph, 0⟩] ∧
    ((⟨"ああ".data, [1, 2], 0, 6, .completeParagraph, 0⟩ :
        HierarchicalChunk).charStart ≤
      (⟨"ああ".data, [1, 2], 0, 6, .completeParagraph, 0⟩ :
        HierarchicalChunk).charEnd ∧
      (⟨"ああ".data, [1, 2], 0, 6, .completeParagraph, 0⟩ :
        HierarchicalChunk).charEnd ≤ byteLen "ああ".data) :=
  ⟨rfl,
    c4_offsets_within_byte_length ⟨100, 1, true, true, true⟩ .characterEstimation
      emptyOracle "ああ".data _ rfl _ (List.mem_singleton.mpr rfl)⟩

theorem c7_witness :
    (∀ c ∈ (" \t\n".data), isRustWs c = true) ∧
    chunkEfficiently ⟨1024, 50, true, true, true⟩ .characterEstimation emptyOracle
      " \t\n".data = .ok [] :=
  ⟨by decide,
    c7_whitespace_short_circuit ⟨1024, 50, true, true, true⟩ .characterEstimation
      emptyOracle " \t\n".data (by decide)⟩

theorem c8_witness :
    ValidCacheOracle .characterEstimation emptyOracle ∧
    ValidCacheOracle .characterEstimation demoOracle ∧
    chunkEfficiently ⟨100, 2, true, true, true⟩ .characterEstimation emptyOracle
        "hello world.".data =
      chunkEfficiently ⟨100, 2, true, true, true⟩ .characterEstimation demoOracle
        "hello world.".data :=
  ⟨emptyOracle_valid _, demoOracle_valid,
    c8_deterministic ⟨100, 2, true, true, true⟩ .characterEstimation emptyOracle
      demoOracle "hello world.".data (emptyOracle_valid _) demoOracle_valid⟩

theorem c9_witness :
    (2 : Nat) ≤ 2 ∧
    (([CacheOp.est "a".data 1, CacheOp.est "b".data 1, CacheOp.est "c".data 1,
        CacheOp.tok "a".data [1]].foldl applyCacheOp
          (TokenizationCache.new 2)).estimationCache.length ≤ 2 ∧
      ([CacheOp.est "a".data 1, CacheOp.est "b".data 1, CacheOp.est "c".data 1,
        CacheOp.tok "a".data [1]].foldl applyCacheOp
          (TokenizationCache.new 2)).tokenizationCache.length ≤ 2) :=
  ⟨by decide,
    c9_cache_bounded
      [CacheOp.est "a".data 1, CacheOp.est "b".data 1, CacheOp.est "c".data 1,
        CacheOp.tok "a".data [1]] 2 (by decide)⟩

theorem c10_witness :
    chunkEfficiently ⟨100, 2, true, true, true⟩ .characterEstimation emptyOracle
      "hello world.".data =
      .ok [⟨"hello world.".data, [1, 2, 3], 0, 12, .completeParagraph, 0⟩] ∧
    (⟨"hello world.".data, [1, 2, 3], 0, 12, .completeParagraph, 0⟩ :
        HierarchicalChunk).tokens =
      List.range' 1 ((byteLen (⟨"hello world.".data, [1, 2, 3], 0, 12,
        .completeParagraph, 0⟩ : HierarchicalChunk).content + 3) / 4) :=
  ⟨rfl,
    c10_fallback_dummy_tokens ⟨100, 2, true, true, true⟩ emptyOracle
      "hello world.".data _ rfl (emptyOracle_valid _) rfl _
      (List.mem_singleton.mpr rfl) (by decide)⟩
